import Mathlib

/-!
Verification model of the ProjectDumper application (src/main.py): the
tri-state selection tree (ttk.Treeview with hidden "fullpath"/"state"
columns plus the path_to_id_map index), the path filter, persistence of
checked paths, effective-selection resolution, selected/full tree rendering
and dump generation.

Modelling conventions, fixed once for the whole file:
* A filesystem path is the list of its segments, already normalized
  (os.path.normpath); Path.resolve is the identity on these inputs, and
  os.path.dirname is List.dropLast, whose fixpoint is the empty list
  (the filesystem root).
* The filesystem snapshot is immutable during a session and every listing
  succeeds; listing errors (OSError branches, which the source logs and
  turns into an inert error label) are outside the modelled state space.
* The "loading..." placeholder child of an unexpanded directory is
  modelled as a boolean flag `ph` on the directory node rather than as a
  child entry; the source always filters it out of state computations by
  its text, and it is the only child while present.
* str.lower is modelled on the ASCII alphabet (lowChar/lowStr), which is
  what the source's comparisons exercise for the configured names.
-/

namespace ProjectDumper

/-- Checkbox state stored in the tree's hidden "state" column:
"unchecked", "checked" or "tristate". -/
inductive CState where
  | unchecked
  | checked
  | tristate
deriving DecidableEq, Repr

/-- A filesystem path as its list of segments. -/
abbrev FPath := List String

/-- One Treeview item: its display name (last path segment), directory flag,
checkbox state, whether a "loading..." placeholder child is currently
present (`ph`), and the real (non-placeholder) children in display order. -/
inductive Node where
  | mk (name : String) (isDir : Bool) (state : CState) (ph : Bool) (children : List Node)

def Node.name : Node → String
  | .mk n _ _ _ _ => n

def Node.isDir : Node → Bool
  | .mk _ d _ _ _ => d

def Node.state : Node → CState
  | .mk _ _ s _ _ => s

def Node.ph : Node → Bool
  | .mk _ _ _ p _ => p

def Node.children : Node → List Node
  | .mk _ _ _ _ cs => cs

/-- Find the first child with the given name (Treeview children are reached
by their item ids; names are unique per directory on a real filesystem, so
name lookup is the functional counterpart). -/
def childNamed (cs : List Node) (x : String) : Option Node :=
  match cs with
  | [] => none
  | c :: rest => if c.name = x then some c else childNamed rest x

/-- Replace the first child with the given name by its image under `f`. -/
def updateChild (cs : List Node) (x : String) (f : Node → Node) : List Node :=
  match cs with
  | [] => []
  | c :: rest => if c.name = x then f c :: rest else c :: updateChild rest x f

/-- The node stored at a relative path below this node, if materialized. -/
def Node.locate : Node → List String → Option Node
  | t, [] => some t
  | t, x :: rest =>
    match childNamed t.children x with
    | some c => Node.locate c rest
    | none => none

/-- Rebuild the tree with the node at the given relative path replaced by
its image under `f`; a dangling path leaves the tree unchanged. -/
def Node.updateAt (f : Node → Node) : Node → List String → Node
  | t, [] => f t
  | t, x :: rest =>
    .mk t.name t.isDir t.state t.ph (updateChild t.children x (fun c => Node.updateAt f c rest))

mutual
/-- Downward propagation of toggle_check / _update_children_state
(src/main.py lines 495-507): set this node's state and, recursively, the
state of every loaded descendant; "loading..." placeholders are skipped by
the source and are untouched here (the `ph` flag is preserved). -/
def Node.setAll (s : CState) : Node → Node
  | .mk n d _ p cs => .mk n d s p (setAllList s cs)

def setAllList (s : CState) : List Node → List Node
  | [] => []
  | c :: cs => Node.setAll s c :: setAllList s cs
end

/-- Aggregation of the loaded children's states used by _update_parent_state
(src/main.py lines 514-519): a singleton set of states yields that common
state, anything else (mixed states, or the empty set that would arise from
placeholder-only children) yields tristate. -/
def childAgg (cs : List CState) : CState :=
  match cs with
  | [] => .tristate
  | s :: rest => if rest.all (fun x => decide (x = s)) then s else .tristate

/-- One state-recomputation step of _update_parent_state applied to a single
node: with no Treeview children at all the source returns without touching
the state (line 513); otherwise the state becomes the aggregation of the
loaded (non-placeholder) children's states. -/
def Node.recompute : Node → Node
  | .mk n d s p cs =>
    if cs.isEmpty && !p then .mk n d s p cs
    else .mk n d (childAgg (cs.map Node.state)) p cs

/-- The _update_parent_state recursion started from the node at relative
path `q` (src/main.py lines 509-525): recompute the state of every proper
ancestor of `q`, deepest first (the node's parent, then its parent, up to
the root). Expressed top-down: all ancestors lying inside child `x` are
recomputed first, then this node itself. -/
def Node.updateParentChain : Node → List String → Node
  | t, [] => t
  | t, x :: rest =>
    Node.recompute
      (.mk t.name t.isDir t.state t.ph (updateChild t.children x (fun c => Node.updateParentChain c rest)))

/-- toggle_check(item_id, state, propagate=True) (src/main.py lines
495-502): a missing item is a no-op; otherwise the node's whole loaded
subtree is set to `s` (_update_children_state) and the ancestors are then
recomputed bottom-up (_update_parent_state). During the source's downward
recursion each child's toggle_check also fires _update_parent_state early;
every state those early passes write is overwritten by the recomputation
triggered after the last child (whose bottom-up pass reads only final
subtree states), so the net effect on the "state" column is exactly this
composition. -/
def Node.toggle_check (t : Node) (q : List String) (s : CState) : Node :=
  match t.locate q with
  | none => t
  | some _ => (t.updateAt (Node.setAll s) q).updateParentChain q

/-- The state transition of on_single_click (src/main.py line 491):
"unchecked" if the current state is "checked", else "checked" (so both
unchecked and tristate map to checked). -/
def clickNewState (cur : CState) : CState :=
  if cur = .checked then .unchecked else .checked

/-- on_single_click's checkbox hit (src/main.py lines 480-493) on an
existing tree row: read the current state, flip it through clickNewState
and toggle_check it. Clicks outside checkbox bounds and clicks on the
"loading..." placeholder row are presentation-level and outside the model. -/
def Node.on_single_click (t : Node) (q : List String) : Node :=
  match t.locate q with
  | none => t
  | some m => t.toggle_check q (clickNewState m.state)

/-- Per-file facts of the snapshot that process_files consults: byte size,
whether os.path.getsize succeeds, whether the binary heuristic (NUL byte in
the first 1024 bytes, or any error while probing, src/main.py lines 638-643)
classifies it binary, and whether the full read/decode succeeds. -/
structure FileInfo where
  size : Nat
  sizeOk : Bool
  binary : Bool
  readOk : Bool
deriving DecidableEq, Repr

/-- The filesystem snapshot: a named file with its FileInfo, or a named
directory with its entries in OS listing order. -/
inductive FS where
  | file (name : String) (info : FileInfo)
  | dir (name : String) (entries : List FS)

def FS.name : FS → String
  | .file n _ => n
  | .dir n _ => n

def FS.isDir : FS → Bool
  | .file _ _ => false
  | .dir _ _ => true

/-- ASCII lowercasing of one character, the fragment of str.lower the
source's comparisons exercise. -/
def lowChar (c : Char) : Char :=
  if 65 ≤ c.toNat ∧ c.toNat ≤ 90 then Char.ofNat (c.toNat + 32) else c

/-- ASCII lowercasing of a string. -/
def lowStr (s : String) : String :=
  String.mk (s.data.map lowChar)

/-- Split a character list at its last dot: returns (before, after) without
the dot itself, or none if no dot occurs. -/
def splitAtLastDot : List Char → Option (List Char × List Char)
  | [] => none
  | c :: cs =>
    match splitAtLastDot cs with
    | some (b, e) => some (c :: b, e)
    | none => if c = '.' then some ([], cs) else none

/-- The extension os.path.splitext would report for a path whose basename is
`s`: the suffix from the last dot, unless every character before that dot is
itself a dot (so ".bashrc" has no extension). -/
def splitextExt (s : String) : String :=
  match splitAtLastDot s.data with
  | some (b, e) => if b.any (fun c => decide (c ≠ '.')) then String.mk ('.' :: e) else ""
  | none => ""

/-- _is_path_ignored (src/main.py lines 325-336): the path is lowered, then
ignored if any of its segments is a configured ignored directory name, or if
its splitext extension is a configured ignored extension (both compared in
lowercase). Path(...).parts on these segment lists is the segment list
itself. -/
def is_path_ignored (igDirs igExts : List String) (p : FPath) : Bool :=
  let pl := p.map lowStr
  (pl.any (fun seg => (igDirs.map lowStr).contains seg)) ||
    ((igExts.map lowStr).contains (splitextExt (pl.getLastD "")))

/-- The state a freshly discovered node receives in _add_node_to_tree
(src/main.py line 437): "checked" iff its resolved path is in the saved
checked-path set, else "unchecked". -/
def initState (cps : List FPath) (p : FPath) : CState :=
  if p ∈ cps then .checked else .unchecked

/-- _add_node_to_tree for a non-root entry (src/main.py lines 433-447): a
file node, or a directory node that receives a "loading..." placeholder
exactly when its listing is nonempty. -/
def mkFsNode (cps : List FPath) (parent : FPath) (e : FS) : Node :=
  match e with
  | .file n _ => .mk n false (initState cps (parent ++ [n])) false []
  | .dir n es => .mk n true (initState cps (parent ++ [n])) (!es.isEmpty) []

/-- Lexicographic code-point comparison of strings, matching Python's
string ordering used by sorted(). -/
def strLeAux : List Char → List Char → Bool
  | [], _ => true
  | _ :: _, [] => false
  | a :: as, b :: bs =>
    if a.toNat < b.toNat then true
    else if b.toNat < a.toNat then false
    else strLeAux as bs

def strLe (a b : String) : Bool :=
  strLeAux a.data b.data

/-- Stable insertion of an entry into a name-sorted listing. -/
def insertByName (e : FS) : List FS → List FS
  | [] => [e]
  | x :: xs => if strLe e.name x.name then e :: x :: xs else x :: insertByName e xs

/-- sorted(os.listdir(path)): the listing in ascending name order. -/
def sortByName : List FS → List FS
  | [] => []
  | x :: xs => insertByName x (sortByName xs)

/-- populate_tree (src/main.py lines 414-431): clear and rebuild the tree
from the source directory: the root node (whose own state also comes from
the checked-path set), one level of children in sorted order, and then one
_update_parent_state pass from the last child, which recomputes only the
root's state (the root has no parent). The pass fires only when the root
has children. -/
def populate (fs : List FS) (r : FPath) (cps : List FPath) : Node :=
  if ((sortByName fs).map (mkFsNode cps r)).isEmpty then
    Node.mk (r.getLastD "") true (initState cps r) false ((sortByName fs).map (mkFsNode cps r))
  else
    (Node.mk (r.getLastD "") true (initState cps r) false
      ((sortByName fs).map (mkFsNode cps r))).recompute

/-- The snapshot's listing at a relative directory path. -/
def listingAt : List FS → List String → Option (List FS)
  | es, [] => some es
  | es, x :: rest =>
    match es.find? (fun e => decide (e.name = x)) with
    | some (.dir _ sub) => listingAt sub rest
    | _ => none

/-- on_tree_open (src/main.py lines 461-478): expanding a node that still
holds its "loading..." placeholder removes the placeholder, inserts the
sorted listing as fresh nodes initialized from the configured checked-path
set, and, when the parent's own state is not "unchecked", overwrites every
new child with the parent state via _update_children_state — whose per-child
toggle_check calls also fire _update_parent_state, recomputing this node
(to the unchanged common child state) and then its ancestors bottom-up; no
recomputation fires when the listing is empty or the parent is unchecked. -/
def on_tree_open (fs : List FS) (r : FPath) (cps : List FPath) (t : Node) (q : List String) : Node :=
  match t.locate q with
  | none => t
  | some m =>
    if m.ph then
      match listingAt fs q with
      | none => t
      | some es =>
        if m.state = .unchecked then
          t.updateAt (fun n => .mk n.name n.isDir n.state false
            ((sortByName es).map (mkFsNode cps (r ++ q)))) q
        else
          if (setAllList m.state ((sortByName es).map (mkFsNode cps (r ++ q)))).isEmpty then
            t.updateAt (fun n => .mk n.name n.isDir n.state false
              (setAllList m.state ((sortByName es).map (mkFsNode cps (r ++ q))))) q
          else
            ((t.updateAt (fun n => .mk n.name n.isDir n.state false
              (setAllList m.state ((sortByName es).map (mkFsNode cps (r ++ q))))) q).updateAt
                Node.recompute q).updateParentChain q
    else t

/-- The path_to_id_map lookup of _is_path_selected: the state of the
materialized node at absolute path `p`, if any. Every inserted node's key
is its normalized absolute path, i.e. the root path `r` followed by its
relative segments; the map and the Treeview stay in sync (populate_tree
clears both together and only placeholders, which are never in the map,
are ever deleted). -/
def lookupState (t : Node) (r : FPath) (p : FPath) : Option CState :=
  if r.isPrefixOf p then (t.locate (p.drop r.length)).map Node.state else none

/-- One iteration of the _is_path_selected loop body at current path `p`
(src/main.py lines 539-550): an explicit "checked"/"unchecked" state of a
materialized node decides; reaching the source root returns whether the
root's state differs from "unchecked" (the root is always materialized once
a tree exists); otherwise the walk continues with `next`. -/
def ispsStep (t : Node) (r : FPath) (p : FPath) (next : Bool) : Bool :=
  match lookupState t r p with
  | some .checked => true
  | some .unchecked => false
  | _ => if p = r then decide (t.state ≠ .unchecked) else next

/-- The ancestor walk of _is_path_selected (src/main.py lines 537-551),
with the queried path passed reversed so that each os.path.dirname step
(dropping the last segment) is structural recursion; at the dirname
fixpoint (the empty path) the walk returns false. -/
def ispsRev (t : Node) (r : FPath) : List String → Bool
  | [] => ispsStep t r [] false
  | x :: rest => ispsStep t r ((x :: rest).reverse) (ispsRev t r rest)

/-- _is_path_selected (src/main.py lines 537-551). -/
def is_path_selected (t : Node) (r : FPath) (p : FPath) : Bool :=
  ispsRev t r p.reverse

mutual
/-- The paths of the entries _generate_file_tree_string appends a line for
(src/main.py lines 553-580), for one entry: in full mode every entry is
listed; in selected mode an entry is skipped (with its whole subtree) when
it is ignored or not effectively selected. The connector/prefix strings
around each name are presentation and are not modelled. Directory listings
are pre-sorted (see generated_tree_entries), matching the per-level
sorted(os.listdir(path)) of the source over an immutable snapshot. -/
def recTreeEntry (full : Bool) (igD igE : List String) (t : Node) (r : FPath) :
    FS → FPath → List FPath
  | e, path =>
    if !full && (is_path_ignored igD igE (path ++ [e.name]) ||
        !is_path_selected t r (path ++ [e.name])) then []
    else
      (path ++ [e.name]) :: (match e with
        | .dir _ sub => recTreeList full igD igE t r sub (path ++ [e.name])
        | .file _ _ => [])

def recTreeList (full : Bool) (igD igE : List String) (t : Node) (r : FPath) :
    List FS → FPath → List FPath
  | [], _ => []
  | e :: es, path =>
    recTreeEntry full igD igE t r e path ++ recTreeList full igD igE t r es path
end

mutual
/-- Recursively sort every directory listing of the snapshot by name; a
pre-sorted snapshot lets the rendering recursion visit entries in exactly
the order of the source's per-level sorted(os.listdir(path)) calls. -/
def FS.sortAll : FS → FS
  | .file n i => .file n i
  | .dir n es => .dir n (sortByName (sortAllList es))

def sortAllList : List FS → List FS
  | [] => []
  | e :: es => FS.sortAll e :: sortAllList es
end

/-- The sequence of entry paths written by _generate_file_tree_string (the
header line naming the root itself, line 555, is emitted separately and
unconditionally and is not an entry). -/
def generated_tree_entries (full : Bool) (igD igE : List String) (t : Node) (r : FPath)
    (fs : List FS) : List FPath :=
  recTreeList full igD igE t r (sortByName (sortAllList fs)) r

/-- The file-collection loop of one os.walk level (src/main.py lines
590-593): every file of the current directory, in listing order, that is
neither ignored nor unselected, paired with its FileInfo. -/
def walkFilesHere (igD igE : List String) (t : Node) (r : FPath) :
    List FS → FPath → List (FPath × FileInfo)
  | [], _ => []
  | .file n i :: es, path =>
    (if !is_path_ignored igD igE (path ++ [n]) && is_path_selected t r (path ++ [n])
     then [(path ++ [n], i)] else [])
    ++ walkFilesHere igD igE t r es path
  | .dir _ _ :: es, path => walkFilesHere igD igE t r es path

mutual
/-- Descent of the pruned os.walk (src/main.py lines 587-589): a directory
whose path _is_path_ignored is pruned (never descended into); a kept
directory contributes its own files first, then its subdirectories,
depth-first in listing order. -/
def walkEntryDirs (igD igE : List String) (t : Node) (r : FPath) :
    FS → FPath → List (FPath × FileInfo)
  | .file _ _, _ => []
  | .dir n sub, path =>
    if !is_path_ignored igD igE (path ++ [n]) then
      walkFilesHere igD igE t r sub (path ++ [n]) ++ walkSubdirsList igD igE t r sub (path ++ [n])
    else []

def walkSubdirsList (igD igE : List String) (t : Node) (r : FPath) :
    List FS → FPath → List (FPath × FileInfo)
  | [], _ => []
  | e :: es, path =>
    walkEntryDirs igD igE t r e path ++ walkSubdirsList igD igE t r es path
end

/-- files_to_process as collected by process_files before the output file is
opened (src/main.py lines 585-593): the pruned, filtered walk of the whole
snapshot starting at the source root. -/
def files_to_process (igD igE : List String) (t : Node) (r : FPath) (fs : List FS) :
    List (FPath × FileInfo) :=
  walkFilesHere igD igE t r fs r ++ walkSubdirsList igD igE t r fs r

mutual
/-- The checked_paths list built by _save_settings_for_current_project
(src/main.py lines 351-354): the resolved path of every materialized tree
node whose "state" column is not "unchecked" (so both "checked" and
"tristate" qualify), in tree pre-order (the iteration order of
path_to_id_map is immaterial to the saved set). -/
def savedPaths (t : Node) (base : FPath) : List FPath :=
  match t with
  | .mk _ _ s _ cs => (if s = .unchecked then [] else [base]) ++ savedPathsList cs base

def savedPathsList : List Node → FPath → List FPath
  | [], _ => []
  | c :: cs, base => savedPaths c (base ++ [c.name]) ++ savedPathsList cs base
end

mutual
/-- Every materialized node of the tree with its absolute path and state:
the functional counterpart of iterating path_to_id_map. -/
def nodesOf : Node → FPath → List (FPath × CState)
  | .mk _ _ s _ cs, base => (base, s) :: nodesOfList cs base

def nodesOfList : List Node → FPath → List (FPath × CState)
  | [], _ => []
  | c :: cs, base => nodesOf c (base ++ [c.name]) ++ nodesOfList cs base
end

/-- The configuration a generation run reads: the two ignore lists, the
max_size_mb entry as parsed by float() — none models a ValueError on a
non-numeric entry, and the numeric value is taken exact in whole megabytes —
the include-full-tree flag, and whether open(output_file, "w") succeeds. -/
structure GenConfig where
  igDirs : List String
  igExts : List String
  maxSizeMb : Option Nat
  includeFullTree : Bool
  openOk : Bool

/-- The per-file gate of the writing loop (src/main.py lines 609-625): a
file is written unless os.path.getsize fails (OSError → continue), the size
exceeds the limit (continue), the binary heuristic fires (continue), or the
read raises (logged, skipped); decode itself never fails (errors are
replaced). -/
def passesWriteFilter (maxBytes : Nat) (fi : FileInfo) : Bool :=
  fi.sizeOk && !(decide (fi.size > maxBytes)) && !fi.binary && fi.readOk

/-- The files whose contents actually reach the output document, in
collection order: the collected list filtered by the per-file gate, with
max_size = maxMb * 1024 * 1024 (src/main.py line 584). -/
def written_files (maxMb : Nat) (files : List (FPath × FileInfo)) : List (FPath × FileInfo) :=
  files.filter (fun pf => passesWriteFilter (maxMb * 1024 * 1024) pf.2)

/-- process_files (src/main.py lines 582-630) as seen by the caller: the
run aborts (outer except — error dialog, button re-enabled, and
on_generation_complete never fires) when float(max_size_var) raises or when
opening the output file fails; otherwise on_generation_complete receives
len(files_to_process), the pre-skip collected count. -/
def process_files (cfg : GenConfig) (fs : List FS) (t : Node) (r : FPath) : Except Unit Nat :=
  match cfg.maxSizeMb with
  | none => .error ()
  | some _ =>
    let files := files_to_process cfg.igDirs cfg.igExts t r fs
    if cfg.openOk then .ok files.length else .error ()

/-- The tree states reachable over a fixed snapshot: an initial
populate_tree (with whatever checked_paths the configuration holds — a
refresh is a further populate), lazy expansions (each re-reading the
configuration), and checkbox clicks on materialized rows. -/
inductive Reachable (fs : List FS) (r : FPath) : Node → Prop where
  | init (cps : List FPath) : Reachable fs r (populate fs r cps)
  | expand (t : Node) (q : List String) (cps : List FPath) :
      Reachable fs r t → Reachable fs r (on_tree_open fs r cps t q)
  | click (t : Node) (q : List String) :
      Reachable fs r t → Reachable fs r (t.on_single_click q)

/-- Modelled from the spec (4.2 isEffectivelySelected), as an independent
reference formulation: the chain of ancestor paths from the queried path
down to the source root — or down to the exhausted empty path when the root
is never reached — built from the reversed path so each dirname step is
structural. -/
def chainRev (r : FPath) (rev : List String) : List FPath :=
  if rev.reverse = r then [r]
  else
    match rev with
    | [] => [[]]
    | _ :: rest => rev.reverse :: chainRev r rest

/-- Modelled from the spec: the decision an explicit state contributes —
Checked and Unchecked decide, a missing node or a tristate marker never
does (tristate is never inherited). -/
def explicitDec : Option CState → Option Bool
  | some .checked => some true
  | some .unchecked => some false
  | _ => none

/-- Modelled from the spec (4.2): effective selection is decided by the
nearest ancestor (the path itself included) with an explicit
Checked/Unchecked state; if none decides, the root's own state is the
fallback when the walk reached the root, and false when ancestry was
exhausted without reaching it. -/
def effectiveSelSpec (t : Node) (r : FPath) (p : FPath) : Bool :=
  let chain := chainRev r p.reverse
  match chain.findSome? (fun q => explicitDec (lookupState t r q)) with
  | some b => b
  | none => if chain.contains r then decide (t.state ≠ .unchecked) else false

mutual
/-- The structural well-formedness the Treeview maintains: a file node is
never tristate, has no children and no placeholder; a node still holding
its "loading..." placeholder has no real children and is never tristate. -/
def invB : Node → Bool
  | .mk _ d s p cs =>
    (d || (decide (s ≠ .tristate) && cs.isEmpty && !p)) &&
    (!p || (cs.isEmpty && decide (s ≠ .tristate))) &&
    invBList cs

def invBList : List Node → Bool
  | [] => true
  | c :: cs => invB c && invBList cs
end

/-! Concrete scenario data used to instantiate the theorems below. -/

/-- A small healthy file. -/
def fi0 : FileInfo := ⟨10, true, false, true⟩

/-- A 6 MiB file, above the default 5 MB limit. -/
def fiBig : FileInfo := ⟨6291456, true, false, true⟩

/-- Snapshot root/{d/{a, b}}. -/
def fsD : List FS := [.dir "d" [.file "a" fi0, .file "b" fi0]]

def rD : FPath := ["root"]

/-- populate_tree over fsD with no saved checked paths. -/
def tD0 : Node := populate fsD rD []

/-- tD0 after lazily expanding d. -/
def tD1 : Node := on_tree_open fsD rD [] tD0 ["d"]

/-- tD1 after clicking the checkbox of file a (d becomes tristate, and so
does the root). -/
def tD2 : Node := tD1.on_single_click ["d", "a"]

/-- The tree rebuilt from tD2's saved settings over the same snapshot. -/
def tD3 : Node := populate fsD rD (savedPaths tD2 rD)

/-- Snapshot root/{big.txt} with the oversized file. -/
def fsBig : List FS := [.file "big.txt" fiBig]

/-- Tree over fsBig with big.txt checked. -/
def tBig : Node := populate fsBig ["root"] [["root", "big.txt"]]

/-- Default-shaped configuration: 5 MB limit, output opens fine. -/
def cfgBig : GenConfig := ⟨[], [], some 5, true, true⟩

/-- Configuration whose max-size entry fails to parse. -/
def cfgBad : GenConfig := ⟨[], [], none, true, true⟩

/-- Snapshot root/{a.txt, node_modules/{x.js}}. -/
def fsNM : List FS := [.file "a.txt" fi0, .dir "node_modules" [.file "x.js" fi0]]

/-- Tree over fsNM with everything effectively selected. -/
def tNM : Node := populate fsNM ["root"] [["root", "a.txt"], ["root", "node_modules"]]

/-! Basic induction principles over the nested tree types. -/

theorem node_ind (P : Node → Prop)
    (h : ∀ n d s p cs, (∀ c ∈ cs, P c) → P (.mk n d s p cs)) : ∀ t, P t
  | .mk n d s p cs => h n d s p cs (fun c hc => node_ind P h c)
termination_by t => sizeOf t
decreasing_by
  have := List.sizeOf_lt_of_mem hc
  simp only [Node.mk.sizeOf_spec]
  omega

theorem fs_ind (P : FS → Prop)
    (hf : ∀ n i, P (.file n i))
    (hd : ∀ n es, (∀ e ∈ es, P e) → P (.dir n es)) : ∀ e, P e
  | .file n i => hf n i
  | .dir n es => hd n es (fun e he => fs_ind P hf hd e)
termination_by e => sizeOf e
decreasing_by
  have := List.sizeOf_lt_of_mem he
  simp only [FS.dir.sizeOf_spec]
  omega

/-! Constructor-form lemmas for the Node accessors. -/

@[simp] theorem name_mk (n : String) (d : Bool) (s : CState) (p : Bool) (cs : List Node) :
    (Node.mk n d s p cs).name = n := rfl

@[simp] theorem isDir_mk (n : String) (d : Bool) (s : CState) (p : Bool) (cs : List Node) :
    (Node.mk n d s p cs).isDir = d := rfl

@[simp] theorem state_mk (n : String) (d : Bool) (s : CState) (p : Bool) (cs : List Node) :
    (Node.mk n d s p cs).state = s := rfl

@[simp] theorem ph_mk (n : String) (d : Bool) (s : CState) (p : Bool) (cs : List Node) :
    (Node.mk n d s p cs).ph = p := rfl

@[simp] theorem children_mk (n : String) (d : Bool) (s : CState) (p : Bool) (cs : List Node) :
    (Node.mk n d s p cs).children = cs := rfl

theorem node_eta (t : Node) : Node.mk t.name t.isDir t.state t.ph t.children = t := by
  cases t; rfl

/-! Lemmas about child lookup and single-child update. -/

theorem childNamed_mem {cs : List Node} {x : String} {c : Node}
    (h : childNamed cs x = some c) : c ∈ cs ∧ c.name = x := by
  induction cs with
  | nil => simp [childNamed] at h
  | cons c0 rest ih =>
    unfold childNamed at h
    by_cases hx : c0.name = x
    · simp [hx] at h; subst h; exact ⟨List.mem_cons_self .., hx⟩
    · simp [hx] at h
      rcases ih h with ⟨h1, h2⟩
      exact ⟨List.mem_cons_of_mem _ h1, h2⟩

theorem updateChild_of_none {cs : List Node} {x : String} {f : Node → Node}
    (h : childNamed cs x = none) : updateChild cs x f = cs := by
  induction cs with
  | nil => rfl
  | cons c0 rest ih =>
    unfold childNamed at h
    by_cases hx : c0.name = x
    · simp [hx] at h
    · simp [hx] at h
      unfold updateChild
      simp [hx, ih h]

theorem childNamed_updateChild_self {cs : List Node} {x : String} {f : Node → Node} {c : Node}
    (h : childNamed cs x = some c) (hf : (f c).name = c.name) :
    childNamed (updateChild cs x f) x = some (f c) := by
  induction cs with
  | nil => simp [childNamed] at h
  | cons c0 rest ih =>
    unfold childNamed at h
    by_cases hx : c0.name = x
    · simp [hx] at h
      subst h
      simp [updateChild, childNamed, hx, hf]
    · simp [hx] at h
      simp [updateChild, childNamed, hx, ih h]

theorem updateChild_length (cs : List Node) (x : String) (f : Node → Node) :
    (updateChild cs x f).length = cs.length := by
  induction cs with
  | nil => rfl
  | cons c0 rest ih =>
    unfold updateChild
    by_cases hx : c0.name = x <;> simp [hx, ih]

theorem updateChild_of_fix {cs : List Node} {x : String} {f : Node → Node} {c : Node}
    (hc : childNamed cs x = some c) (hfix : f c = c) : updateChild cs x f = cs := by
  induction cs with
  | nil => simp [childNamed] at hc
  | cons c0 rest ih =>
    unfold childNamed at hc
    unfold updateChild
    by_cases hx : c0.name = x
    · simp [hx] at hc ⊢
      rw [← hc] at hfix
      exact hfix
    · simp [hx] at hc ⊢
      exact ih hc

/-! Lemmas about locate, updateAt, setAll and the parent-recompute chain. -/

theorem updateAt_name {f : Node → Node} (hf : ∀ n, (f n).name = n.name)
    (t : Node) (q : List String) : (t.updateAt f q).name = t.name := by
  cases q with
  | nil => exact hf t
  | cons x rest => rfl

theorem updateAt_locate {f : Node → Node} (hf : ∀ n, (f n).name = n.name) :
    ∀ (q : List String) (t m : Node), t.locate q = some m →
      ∀ rest, (t.updateAt f q).locate (q ++ rest) = (f m).locate rest := by
  intro q
  induction q with
  | nil =>
    intro t m h rest
    simp [Node.locate] at h
    subst h
    rfl
  | cons x q2 ih =>
    intro t m h rest
    cases t with
    | mk n d s p cs =>
      unfold Node.locate at h
      simp only [children_mk] at h
      cases hc : childNamed cs x with
      | none => rw [hc] at h; simp at h
      | some c =>
        rw [hc] at h
        simp only [Node.updateAt, List.cons_append, Node.locate, children_mk]
        rw [childNamed_updateChild_self hc (updateAt_name hf c q2)]
        exact ih c m h rest

theorem updateAt_of_locate_none {f : Node → Node} :
    ∀ (q : List String) (t : Node), t.locate q = none → t.updateAt f q = t := by
  intro q
  induction q with
  | nil => intro t h; simp [Node.locate] at h
  | cons x q2 ih =>
    intro t h
    cases t with
    | mk n d s p cs =>
      unfold Node.locate at h
      simp only [children_mk] at h
      simp only [Node.updateAt, name_mk, isDir_mk, state_mk, ph_mk, children_mk]
      cases hc : childNamed cs x with
      | none => rw [updateChild_of_none hc]
      | some c =>
        rw [hc] at h
        rw [updateChild_of_fix hc (ih c h)]

theorem setAll_name (s : CState) (t : Node) : (Node.setAll s t).name = t.name := by
  cases t; rfl

theorem setAll_state (s : CState) (t : Node) : (Node.setAll s t).state = s := by
  cases t; rfl

theorem childNamed_setAllList (s : CState) (cs : List Node) (x : String) :
    childNamed (setAllList s cs) x = (childNamed cs x).map (Node.setAll s) := by
  induction cs with
  | nil => rfl
  | cons c0 rest ih =>
    simp only [setAllList, childNamed, setAll_name]
    by_cases hx : c0.name = x <;> simp [hx, ih]

theorem setAll_locate (s : CState) :
    ∀ (q : List String) (t : Node),
      (Node.setAll s t).locate q = (t.locate q).map (Node.setAll s) := by
  intro q
  induction q with
  | nil => intro t; rfl
  | cons x q2 ih =>
    intro t
    cases t with
    | mk n d st p cs =>
      simp only [Node.setAll, Node.locate, Node.children, childNamed_setAllList]
      cases hc : childNamed cs x with
      | none => rfl
      | some c => simpa using ih c

theorem recompute_name (t : Node) : t.recompute.name = t.name := by
  cases t with
  | mk n d s p cs =>
    unfold Node.recompute
    by_cases h : (cs.isEmpty && !p) = true <;> simp [h]

theorem recompute_children (t : Node) : t.recompute.children = t.children := by
  cases t with
  | mk n d s p cs =>
    unfold Node.recompute
    by_cases h : (cs.isEmpty && !p) = true <;> simp [h]

theorem chain_name : ∀ (q : List String) (t : Node),
    (t.updateParentChain q).name = t.name := by
  intro q
  cases q with
  | nil => intro t; rfl
  | cons x rest =>
    intro t
    rw [Node.updateParentChain, recompute_name, name_mk]

theorem chain_locate : ∀ (q : List String) (t : Node) (rest : List String),
    (t.updateParentChain q).locate (q ++ rest) = t.locate (q ++ rest) := by
  intro q
  induction q with
  | nil => intro t rest; rfl
  | cons x q2 ih =>
    intro t rest
    cases t with
    | mk n d s p cs =>
      simp only [Node.updateParentChain, name_mk, isDir_mk, state_mk, ph_mk, children_mk,
        List.cons_append, Node.locate, recompute_children]
      cases hc : childNamed cs x with
      | none => rw [updateChild_of_none hc, hc]
      | some c =>
        simp only [@childNamed_updateChild_self cs x (fun n => n.updateParentChain q2) c hc
          (chain_name q2 c), hc]
        exact ih c rest

theorem toggle_locate_append (t : Node) (q : List String) (s : CState) (m : Node)
    (h : t.locate q = some m) (rest : List String) :
    (t.toggle_check q s).locate (q ++ rest) = ((Node.setAll s m).locate rest) := by
  unfold Node.toggle_check
  rw [h]
  rw [chain_locate, updateAt_locate (setAll_name s) q t m h rest]

theorem toggle_state_at (t : Node) (q : List String) (s : CState) (m : Node)
    (h : t.locate q = some m) (rest : List String) (m2 : Node)
    (h2 : (t.toggle_check q s).locate (q ++ rest) = some m2) : m2.state = s := by
  rw [toggle_locate_append t q s m h rest, setAll_locate] at h2
  cases hm : m.locate rest with
  | none => rw [hm] at h2; simp at h2
  | some m3 =>
    rw [hm] at h2
    simp at h2
    rw [← h2, setAll_state]

/-! Effective selection: the implementation's walk versus the spec's
nearest-explicit-ancestor formulation. -/

theorem lookupState_self (t : Node) (r : FPath) : lookupState t r r = some t.state := by
  unfold lookupState
  have h : r.isPrefixOf r = true := by simp [List.isPrefixOf_iff_prefix]
  rw [if_pos h, List.drop_length]
  rfl

theorem lookupState_none_of_not_under {t : Node} {r p : FPath} (h : ¬ r <+: p) :
    lookupState t r p = none := by
  unfold lookupState
  rw [if_neg]
  intro hpre
  exact h (List.isPrefixOf_iff_prefix.mp hpre)

@[simp] theorem explicitDec_checked : explicitDec (some .checked) = some true := rfl

@[simp] theorem explicitDec_unchecked : explicitDec (some .unchecked) = some false := rfl

@[simp] theorem explicitDec_tristate : explicitDec (some .tristate) = none := rfl

@[simp] theorem explicitDec_none : explicitDec none = none := rfl

theorem ispsRev_eq_chainEval (t : Node) (r : FPath) :
    ∀ rev : List String,
      ispsRev t r rev =
        (match (chainRev r rev).findSome? (fun q => explicitDec (lookupState t r q)) with
         | some b => b
         | none =>
           if (chainRev r rev).contains r then decide (t.state ≠ .unchecked) else false) := by
  intro rev
  induction rev with
  | nil =>
    by_cases hr : ([] : List String).reverse = r
    · simp only [List.reverse_nil] at hr
      subst hr
      cases hs : t.state <;>
        simp [ispsRev, ispsStep, chainRev, lookupState_self, hs, List.findSome?_cons]
    · have hne : ¬ r <+: ([] : FPath) := by
        intro hpre
        exact hr (List.prefix_nil.mp hpre).symm
      have h1 : lookupState t r [] = none := lookupState_none_of_not_under hne
      have hrne : r ≠ ([] : FPath) := by
        intro hrr
        exact hr hrr.symm
      simp only [List.reverse_nil] at hr
      simp [ispsRev, ispsStep, chainRev, hr, h1, List.findSome?_cons, List.elem_iff, hrne]
  | cons x rest ih =>
    by_cases hr : rest.reverse ++ [x] = r
    · cases hs : t.state <;>
        simp [ispsRev, ispsStep, chainRev, List.reverse_cons, hr, lookupState_self, hs,
          List.findSome?_cons, List.elem_iff]
    · have hrne : r ≠ rest.reverse ++ [x] := fun h => hr h.symm
      cases hl : lookupState t r (rest.reverse ++ [x]) with
      | some st =>
        cases st with
        | unchecked =>
          simp [ispsRev, ispsStep, chainRev, List.reverse_cons, hr, hl, List.findSome?_cons]
        | checked =>
          simp [ispsRev, ispsStep, chainRev, List.reverse_cons, hr, hl, List.findSome?_cons]
        | tristate =>
          simp only [ispsRev, ispsStep, chainRev, List.reverse_cons, hr, hl, if_neg hr,
            List.findSome?_cons, explicitDec_tristate, if_false]
          rw [ih]
          cases hfs : (chainRev r rest).findSome? (fun q => explicitDec (lookupState t r q)) with
          | some b => simp [hfs]
          | none => simp [hfs, List.elem_iff, hrne]
      | none =>
        simp only [ispsRev, ispsStep, chainRev, List.reverse_cons, hr, hl, if_neg hr,
          List.findSome?_cons, explicitDec_none, if_false]
        rw [ih]
        cases hfs : (chainRev r rest).findSome? (fun q => explicitDec (lookupState t r q)) with
        | some b => simp [hfs]
        | none => simp [hfs, List.elem_iff, hrne]

/-- C3: for every path queried against a fixed tree, _is_path_selected is
decided by the nearest ancestor (the queried path itself included) whose
explicit state is Checked or Unchecked — returning true resp. false — and
tristate is never inherited: with no explicit Checked/Unchecked ancestor
the source root's own state is the final fallback (selected iff it is not
Unchecked), and exhausting ancestry without reaching the root yields
false. The right-hand side is the spec-side formulation effectiveSelSpec. -/
theorem c3_effective_selection_nearest_ancestor (t : Node) (r : FPath) (p : FPath) :
    is_path_selected t r p = effectiveSelSpec t r p := by
  unfold is_path_selected effectiveSelSpec
  exact ispsRev_eq_chainEval t r p.reverse

/-! Toggling a subtree and querying inside it (claims C7 and C10). -/

theorem setAll_locate_state {s : CState} {m mm : Node} {tail : List String}
    (h : (Node.setAll s m).locate tail = some mm) : mm.state = s := by
  rw [setAll_locate] at h
  cases hm : m.locate tail with
  | none => rw [hm] at h; simp at h
  | some m3 =>
    rw [hm] at h
    simp at h
    rw [← h, setAll_state]

theorem lookup_toggle_under (t : Node) (r : FPath) (q : List String) (s : CState) (m : Node)
    (h : t.locate q = some m) (tail : List String) :
    lookupState (t.toggle_check q s) r (r ++ q ++ tail) =
      ((Node.setAll s m).locate tail).map Node.state := by
  unfold lookupState
  have hpre : r.isPrefixOf (r ++ q ++ tail) = true := by
    simp [List.isPrefixOf_iff_prefix, List.append_assoc]
  rw [if_pos hpre]
  have hdrop : (r ++ q ++ tail).drop r.length = q ++ tail := by
    rw [List.append_assoc, List.drop_left]
  rw [hdrop, toggle_locate_append t q s m h tail]

theorem isps_toggle_sub (t : Node) (r : FPath) (q : List String) (s : CState) (m : Node)
    (h : t.locate q = some m) (hs : s = .checked ∨ s = .unchecked) :
    ∀ rev : List String, (r ++ q) <+: rev.reverse →
      ispsRev (t.toggle_check q s) r rev = decide (s = .checked) := by
  intro rev
  induction rev with
  | nil =>
    intro hp
    simp only [List.reverse_nil] at hp
    rcases List.prefix_nil.mp hp |> List.append_eq_nil.mp with ⟨hr0, hq0⟩
    subst hr0; subst hq0
    have hl := lookup_toggle_under t [] [] s m h []
    simp only [List.append_nil, List.nil_append] at hl
    unfold ispsRev ispsStep
    rcases hs with hs | hs <;> subst hs <;> simp [hl, Node.locate, setAll_state]
  | cons x rest ih =>
    intro hp
    simp only [List.reverse_cons] at hp
    rcases hp with ⟨tail, htail⟩
    have hl : lookupState (t.toggle_check q s) r (rest.reverse ++ [x]) =
        ((Node.setAll s m).locate tail).map Node.state := by
      have h0 := lookup_toggle_under t r q s m h tail
      rw [List.append_assoc] at htail
      rw [List.append_assoc, htail] at h0
      exact h0
    unfold ispsRev ispsStep
    simp only [List.reverse_cons, hl]
    cases hm : (Node.setAll s m).locate tail with
    | some mm =>
      have hmm := setAll_locate_state hm
      rcases hs with hs | hs <;> subst hs <;> simp [hmm]
    | none =>
      have htne : tail ≠ [] := by
        intro h0
        subst h0
        simp [Node.locate] at hm
      have hrne : rest.reverse ++ [x] ≠ r := by
        intro h0
        have h1 : r ++ (q ++ tail) = r ++ [] := by
          rw [← List.append_assoc, htail, h0, List.append_nil]
        have h2 := List.append_cancel_left h1
        rcases List.append_eq_nil.mp h2 with ⟨hq0, ht0⟩
        exact htne ht0
      have hstep : (r ++ q) <+: rest.reverse := by
        have hcat : (r ++ q) <+: rest.reverse ++ [x] := ⟨tail, htail⟩
        rcases List.prefix_concat_iff.mp hcat with heq | hpre
        · exfalso
          have h1 : (r ++ q) ++ tail = (r ++ q) ++ [] := by
            rw [htail, heq, List.append_nil]
          exact htne (List.append_cancel_left h1)
        · exact hpre
      simp only [Option.map_none', if_neg hrne]
      exact ih hstep

/-- C7: after toggling a materialized directory node to Checked, the
effective selection of every path at or below it — including paths never
materialized by lazy loading — is true; after toggling it to Unchecked the
same queries yield false (the toggled state decides, since the whole loaded
subtree now carries it and it is the nearest explicit ancestor of any
unmaterialized descendant). -/
theorem c7_toggle_directory_descendants (t : Node) (r : FPath) (q : List String) (s : CState)
    (m : Node) (h : t.locate q = some m) (hs : s = .checked ∨ s = .unchecked)
    (p : FPath) (hp : (r ++ q) <+: p) :
    is_path_selected (t.toggle_check q s) r p = decide (s = .checked) := by
  unfold is_path_selected
  refine isps_toggle_sub t r q s m h hs p.reverse ?_
  simpa using hp

/-- C10: the single-click handler maps Checked to Unchecked and maps both
Unchecked and Tristate to Checked; consequently clicking a node whose
current state is Tristate sets it and, by propagation, every loaded
descendant to Checked, never to Unchecked. -/
theorem c10_tristate_click_checks :
    (clickNewState .tristate = .checked ∧ clickNewState .unchecked = .checked ∧
      clickNewState .checked = .unchecked) ∧
    ∀ (t : Node) (q : List String) (m : Node), t.locate q = some m → m.state = .tristate →
      ∀ (rest : List String) (m2 : Node),
        (t.on_single_click q).locate (q ++ rest) = some m2 → m2.state = .checked := by
  refine ⟨⟨rfl, rfl, rfl⟩, ?_⟩
  intro t q m h hm rest m2 h2
  unfold Node.on_single_click at h2
  have hclick : clickNewState m.state = .checked := by rw [hm]; rfl
  simp only [h, hclick] at h2
  exact toggle_state_at t q .checked m h rest m2 h2

/-! Toggling and the recomputed ancestor chain (claim C6). -/

theorem toggle_name (t : Node) (q : List String) (s : CState) :
    (t.toggle_check q s).name = t.name := by
  unfold Node.toggle_check
  cases h : t.locate q with
  | none => rfl
  | some m => rw [chain_name, updateAt_name (setAll_name s)]

theorem updateChild_congr (cs : List Node) (x : String) (f g : Node → Node)
    (h : ∀ c, childNamed cs x = some c → f c = g c) :
    updateChild cs x f = updateChild cs x g := by
  induction cs with
  | nil => rfl
  | cons c0 rest ih =>
    unfold updateChild
    by_cases hx : c0.name = x
    · have hc : childNamed (c0 :: rest) x = some c0 := by simp [childNamed, hx]
      simp [hx, h c0 hc]
    · have ih2 := ih (fun c hc => h c (by simpa [childNamed, hx] using hc))
      simp [hx, ih2]

theorem updateChild_updateChild (cs : List Node) (x : String) (f g : Node → Node)
    (hf : ∀ c, childNamed cs x = some c → (f c).name = c.name) :
    updateChild (updateChild cs x f) x g = updateChild cs x (fun c => g (f c)) := by
  induction cs with
  | nil => rfl
  | cons c0 rest ih =>
    by_cases hx : c0.name = x
    · have hc : childNamed (c0 :: rest) x = some c0 := by simp [childNamed, hx]
      have hname := hf c0 hc
      simp [updateChild, hx, hname]
    · have ih2 := ih (fun c hc => hf c (by simpa [childNamed, hx] using hc))
      simp [updateChild, hx, ih2]

theorem toggle_cons (n : String) (d : Bool) (st : CState) (p : Bool) (cs : List Node)
    (x : String) (rest : List String) (s : CState) (c : Node)
    (hc : childNamed cs x = some c) (hsub : (c.locate rest).isSome) :
    (Node.mk n d st p cs).toggle_check (x :: rest) s =
      Node.recompute (.mk n d st p (updateChild cs x (fun nn => nn.toggle_check rest s))) := by
  obtain ⟨m, hm⟩ := Option.isSome_iff_exists.mp hsub
  have hloc : (Node.mk n d st p cs).locate (x :: rest) = some m := by
    simp [Node.locate, hc, hm]
  unfold Node.toggle_check
  rw [hloc]
  simp only [Node.updateAt, Node.updateParentChain, name_mk, isDir_mk, state_mk, ph_mk,
    children_mk]
  congr 2
  rw [updateChild_updateChild cs x _ _ (fun cc _ => updateAt_name (setAll_name s) cc rest)]
  apply updateChild_congr
  intro cc hcc
  rw [hc] at hcc
  injection hcc with hcc2
  subst hcc2
  rw [hm]

theorem childAgg_eq_state_iff (cs : List CState) (s : CState) (hne : s ≠ .tristate) :
    childAgg cs = s ↔ cs ≠ [] ∧ ∀ x ∈ cs, x = s := by
  cases cs with
  | nil =>
    simp only [childAgg, ne_eq, not_true_eq_false, false_and, iff_false]
    intro h
    exact hne h.symm
  | cons s0 rest =>
    simp only [childAgg]
    by_cases hall : rest.all (fun x => decide (x = s0)) = true
    · rw [if_pos hall]
      simp only [List.all_eq_true, decide_eq_true_eq] at hall
      constructor
      · intro h
        subst h
        refine ⟨by simp, ?_⟩
        intro x hx
        rcases List.mem_cons.mp hx with h | h
        · exact h
        · exact hall x h
      · rintro ⟨h1, h2⟩
        exact h2 s0 (by simp)
    · rw [if_neg hall]
      constructor
      · intro h
        exact absurd h.symm hne
      · rintro ⟨h1, h2⟩
        exfalso
        apply hall
        simp only [List.all_eq_true, decide_eq_true_eq]
        intro x hx
        rw [h2 x (List.mem_cons_of_mem _ hx), h2 s0 (by simp)]

theorem toggle_ancestor_agg : ∀ (q : List String) (t : Node) (s : CState) (m : Node),
    t.locate q = some m → ∀ b, b <+: q → b ≠ q →
      ∃ mb, (t.toggle_check q s).locate b = some mb ∧ mb.children ≠ [] ∧
        mb.state = childAgg (mb.children.map Node.state) := by
  intro q
  induction q with
  | nil =>
    intro t s m h b hb hne
    exact absurd (List.prefix_nil.mp hb) hne
  | cons x rest ih =>
    intro t s m h b hb hne
    cases t with
    | mk n d st p cs =>
      have h2 := h
      unfold Node.locate at h2
      simp only [children_mk] at h2
      cases hc : childNamed cs x with
      | none => rw [hc] at h2; simp at h2
      | some c =>
        simp only [hc] at h2
        have hfused := toggle_cons n d st p cs x rest s c hc (by rw [h2]; rfl)
        rw [hfused]
        have hne2 : updateChild cs x (fun nn => nn.toggle_check rest s) ≠ [] := by
          intro h0
          have hl := updateChild_length cs x (fun nn => nn.toggle_check rest s)
          rw [h0] at hl
          have : cs = [] := List.length_eq_zero.mp hl.symm
          subst this
          simp [childNamed] at hc
        have hisE : (updateChild cs x (fun nn => nn.toggle_check rest s)).isEmpty = false := by
          cases hu : updateChild cs x (fun nn => nn.toggle_check rest s) with
          | nil => exact absurd hu hne2
          | cons a as => rfl
        have hrec : Node.recompute (.mk n d st p
              (updateChild cs x (fun nn => nn.toggle_check rest s))) =
            .mk n d (childAgg ((updateChild cs x (fun nn => nn.toggle_check rest s)).map
              Node.state)) p (updateChild cs x (fun nn => nn.toggle_check rest s)) := by
          simp only [Node.recompute, hisE]
          simp
        cases b with
        | nil =>
          refine ⟨_, rfl, ?_, ?_⟩
          · rw [hrec, children_mk]
            exact hne2
          · rw [hrec, state_mk, children_mk]
        | cons y b2 =>
          rcases List.cons_prefix_cons.mp hb with ⟨hy, hb2⟩
          subst hy
          have hb2ne : b2 ≠ rest := fun h0 => hne (by rw [h0])
          have hstep : (Node.recompute (Node.mk n d st p
                (updateChild cs y (fun nn => nn.toggle_check rest s)))).locate (y :: b2) =
              (c.toggle_check rest s).locate b2 := by
            conv =>
              lhs
              rw [Node.locate]
            rw [recompute_children, children_mk]
            rw [@childNamed_updateChild_self cs y (fun nn => nn.toggle_check rest s) c hc
              (toggle_name c rest s)]
          rw [hstep]
          exact ih c s m h2 b2 hb2 hb2ne

/-- C6: after any toggle of a materialized node, every proper ancestor of
it up to the root carries the recomputed state: the aggregation (childAgg)
of its loaded, non-placeholder children's states — equivalently, it is
Checked (resp. Unchecked) iff all those children share that state, and
Tristate otherwise; the states are recomputed bottom-up from the toggled
node's parent to the root by _update_parent_state. -/
theorem c6_ancestor_states_recomputed (t : Node) (q : List String) (s : CState) (m : Node)
    (h : t.locate q = some m) (b : List String) (hb : b <+: q) (hne : b ≠ q) :
    ∃ mb, (t.toggle_check q s).locate b = some mb ∧
      mb.state = childAgg (mb.children.map Node.state) ∧
      (mb.state = .checked ↔ mb.children ≠ [] ∧ ∀ c ∈ mb.children, c.state = .checked) ∧
      (mb.state = .unchecked ↔ mb.children ≠ [] ∧ ∀ c ∈ mb.children, c.state = .unchecked) ∧
      (mb.state ≠ .checked → mb.state ≠ .unchecked → mb.state = .tristate) := by
  obtain ⟨mb, hloc, hcne, hagg⟩ := toggle_ancestor_agg q t s m h b hb hne
  have hiff : ∀ s2 : CState, s2 ≠ .tristate →
      (mb.state = s2 ↔ mb.children ≠ [] ∧ ∀ c ∈ mb.children, c.state = s2) := by
    intro s2 hs2
    rw [hagg, childAgg_eq_state_iff _ _ hs2]
    constructor
    · rintro ⟨h1, h2⟩
      refine ⟨by simpa using h1, fun c hcmem => h2 c.state (List.mem_map_of_mem _ hcmem)⟩
    · rintro ⟨h1, h2⟩
      refine ⟨by simpa using h1, ?_⟩
      intro xx hxx
      rcases List.mem_map.mp hxx with ⟨c, hcmem, rfl⟩
      exact h2 c hcmem
  refine ⟨mb, hloc, hagg, hiff .checked (by intro h0; cases h0),
    hiff .unchecked (by intro h0; cases h0), ?_⟩
  intro h1 h2
  cases hmb : mb.state with
  | checked => exact absurd hmb h1
  | unchecked => exact absurd hmb h2
  | tristate => rfl

theorem c6_witness :
    ∃ mb, ((tD1.toggle_check ["d", "a"] .checked).locate ["d"]) = some mb ∧
      mb.state = childAgg (mb.children.map Node.state) ∧
      (mb.state = .checked ↔ mb.children ≠ [] ∧ ∀ c ∈ mb.children, c.state = .checked) ∧
      (mb.state = .unchecked ↔ mb.children ≠ [] ∧ ∀ c ∈ mb.children, c.state = .unchecked) ∧
      (mb.state ≠ .checked → mb.state ≠ .unchecked → mb.state = .tristate) :=
  c6_ancestor_states_recomputed tD1 ["d", "a"] .checked
    (Node.mk "a" false .unchecked false []) rfl ["d"] (by decide) (by decide)

theorem c7_witness :
    is_path_selected (tD1.toggle_check ["d"] .checked) rD ["root", "d", "zz"] = true ∧
    is_path_selected (tD1.toggle_check ["d"] .unchecked) rD ["root", "d", "zz"] = false := by
  constructor
  · have h := c7_toggle_directory_descendants tD1 rD ["d"] .checked
      (Node.mk "d" true .unchecked false
        [Node.mk "a" false .unchecked false [], Node.mk "b" false .unchecked false []])
      rfl (Or.inl rfl) ["root", "d", "zz"] (by decide)
    simpa using h
  · have h := c7_toggle_directory_descendants tD1 rD ["d"] .unchecked
      (Node.mk "d" true .unchecked false
        [Node.mk "a" false .unchecked false [], Node.mk "b" false .unchecked false []])
      rfl (Or.inr rfl) ["root", "d", "zz"] (by decide)
    simpa using h

theorem c10_witness : (Node.mk "b" false CState.checked false []).state = CState.checked :=
  c10_tristate_click_checks.2 tD2 ["d"]
    (Node.mk "d" true .tristate false
      [Node.mk "a" false .checked false [], Node.mk "b" false .unchecked false []])
    rfl rfl ["b"]
    (Node.mk "b" false CState.checked false []) rfl

/-! The structural invariant over reachable tree states (claim C4). -/

theorem invB_mk (n : String) (d : Bool) (s : CState) (p : Bool) (cs : List Node) :
    invB (.mk n d s p cs) =
      ((d || (decide (s ≠ .tristate) && cs.isEmpty && !p)) &&
        (!p || (cs.isEmpty && decide (s ≠ .tristate))) && invBList cs) := rfl

theorem band_split {a b : Bool} (h : (a && b) = true) : a = true ∧ b = true := by
  simp only [Bool.and_eq_true] at h
  exact h

theorem invBList_mem : ∀ {cs : List Node} {c : Node},
    invBList cs = true → c ∈ cs → invB c = true := by
  intro cs
  induction cs with
  | nil => intro c _ hc; cases hc
  | cons c0 rest ih =>
    intro c h hc
    unfold invBList at h
    rcases band_split h with ⟨h1, h2⟩
    rcases List.mem_cons.mp hc with hc | hc
    · subst hc; exact h1
    · exact ih h2 hc

theorem invBList_of_all : ∀ {cs : List Node},
    (∀ c ∈ cs, invB c = true) → invBList cs = true := by
  intro cs
  induction cs with
  | nil => intro _; rfl
  | cons c0 rest ih =>
    intro h
    unfold invBList
    rw [h c0 (by simp), ih (fun c hc => h c (List.mem_cons_of_mem _ hc))]
    rfl

theorem invB_locate : ∀ (q : List String) (t m : Node),
    invB t = true → t.locate q = some m → invB m = true := by
  intro q
  induction q with
  | nil =>
    intro t m h hm
    simp [Node.locate] at hm
    subst hm
    exact h
  | cons x rest ih =>
    intro t m h hm
    cases t with
    | mk n d s p cs =>
      unfold Node.locate at hm
      simp only [children_mk] at hm
      cases hc : childNamed cs x with
      | none => rw [hc] at hm; simp at hm
      | some c =>
        simp only [hc] at hm
        rw [invB_mk] at h
        rcases band_split h with ⟨_, h2⟩
        exact ih c m (invBList_mem h2 (childNamed_mem hc).1) hm

theorem invBList_updateChild {cs : List Node} {x : String} {f : Node → Node}
    (h : invBList cs = true) (hf : ∀ c, childNamed cs x = some c → invB (f c) = true) :
    invBList (updateChild cs x f) = true := by
  induction cs with
  | nil => rfl
  | cons c0 rest ih =>
    unfold invBList at h
    rcases band_split h with ⟨h1, h2⟩
    unfold updateChild
    by_cases hx : c0.name = x
    · have hc : childNamed (c0 :: rest) x = some c0 := by simp [childNamed, hx]
      rw [if_pos hx]
      unfold invBList
      rw [hf c0 hc, h2]
      rfl
    · rw [if_neg hx]
      unfold invBList
      rw [ih h2 (fun c hc => hf c (by simpa [childNamed, hx] using hc)), h1]
      rfl

theorem updateChild_isEmpty (cs : List Node) (x : String) (f : Node → Node) :
    (updateChild cs x f).isEmpty = cs.isEmpty := by
  cases cs with
  | nil => rfl
  | cons c0 rest =>
    unfold updateChild
    by_cases hx : c0.name = x <;> simp [hx]

theorem invB_updateAt {f : Node → Node} :
    ∀ (q : List String) (t : Node), invB t = true →
      (∀ m, t.locate q = some m → invB (f m) = true) →
      invB (t.updateAt f q) = true := by
  intro q
  induction q with
  | nil =>
    intro t h hf
    exact hf t (by simp [Node.locate])
  | cons x rest ih =>
    intro t h hf
    cases t with
    | mk n d s p cs =>
      simp only [Node.updateAt, name_mk, isDir_mk, state_mk, ph_mk, children_mk]
      rw [invB_mk] at h ⊢
      rcases band_split h with ⟨h1, h2⟩
      rw [updateChild_isEmpty]
      rw [invBList_updateChild h2 ?hchild, h1]
      · rfl
      case hchild =>
        intro c hc
        apply ih c (invBList_mem h2 (childNamed_mem hc).1)
        intro m hm
        apply hf
        unfold Node.locate
        simp only [children_mk, hc]
        exact hm

theorem setAllList_isEmpty (s : CState) (cs : List Node) :
    (setAllList s cs).isEmpty = cs.isEmpty := by
  cases cs <;> rfl

theorem setAllList_invB (s : CState) : ∀ (cs : List Node),
    (∀ c ∈ cs, invB c = true → invB (Node.setAll s c) = true) →
    invBList cs = true → invBList (setAllList s cs) = true := by
  intro cs
  induction cs with
  | nil => intro _ _; rfl
  | cons c0 rest ih =>
    intro hmem hl
    unfold invBList at hl
    rcases band_split hl with ⟨hl1, hl2⟩
    unfold setAllList invBList
    rw [hmem c0 (by simp) hl1, ih (fun c hc h => hmem c (List.mem_cons_of_mem _ hc) h) hl2]
    rfl

theorem invB_setAll (s : CState) (hs : s ≠ .tristate) :
    ∀ t, invB t = true → invB (Node.setAll s t) = true := by
  intro t
  induction t using node_ind with
  | h n d st p cs ih =>
    intro h
    have h2 : invBList cs = true := by
      rw [invB_mk] at h
      exact (band_split h).2
    have hlist : invBList (setAllList s cs) = true := setAllList_invB s cs ih h2
    simp only [Node.setAll, invB_mk, setAllList_isEmpty, hlist, Bool.and_true]
    rw [invB_mk] at h
    simp only [Bool.and_eq_true, Bool.or_eq_true, decide_eq_true_eq] at h ⊢
    have hs2 : s ≠ CState.tristate := hs
    tauto

theorem ne_nil_of_isEmpty_false {α : Type} {l : List α} (h : l.isEmpty = false) : l ≠ [] := by
  intro h0
  subst h0
  simp at h

theorem recompute_mk_ne_nil {n : String} {d : Bool} {s : CState} {p : Bool} {cs : List Node}
    (h : cs ≠ []) :
    Node.recompute (.mk n d s p cs) = .mk n d (childAgg (cs.map Node.state)) p cs := by
  have hisE : cs.isEmpty = false := by
    cases cs with
    | nil => exact absurd rfl h
    | cons a as => rfl
  simp only [Node.recompute, hisE]
  simp

theorem invB_parts_of_ne_nil {n : String} {d : Bool} {s : CState} {p : Bool} {cs : List Node}
    (h : invB (.mk n d s p cs) = true) (hcs : cs ≠ []) : d = true ∧ p = false := by
  rw [invB_mk] at h
  have hisE : cs.isEmpty = false := by
    cases cs with
    | nil => exact absurd rfl hcs
    | cons a as => rfl
  rw [hisE] at h
  simp only [Bool.and_false, Bool.false_and, Bool.or_false] at h
  rcases band_split h with ⟨h1, _⟩
  rcases band_split h1 with ⟨hd, hp⟩
  exact ⟨hd, by simpa using hp⟩

theorem invB_chain : ∀ (q : List String) (t : Node), invB t = true →
    (t.locate q).isSome → invB (t.updateParentChain q) = true := by
  intro q
  induction q with
  | nil => intro t h _; exact h
  | cons x rest ih =>
    intro t h hloc
    cases t with
    | mk n d st p cs =>
      obtain ⟨m, hm⟩ := Option.isSome_iff_exists.mp hloc
      have hm2 := hm
      unfold Node.locate at hm2
      simp only [children_mk] at hm2
      cases hc : childNamed cs x with
      | none => rw [hc] at hm2; simp at hm2
      | some c =>
        simp only [hc] at hm2
        have h2 : invBList cs = true := by
          rw [invB_mk] at h
          exact (band_split h).2
        have hcinv : invB c = true := invBList_mem h2 (childNamed_mem hc).1
        have hcs : cs ≠ [] := by
          intro h0
          subst h0
          simp [childNamed] at hc
        obtain ⟨hd, hp⟩ := invB_parts_of_ne_nil h hcs
        simp only [Node.updateParentChain, name_mk, isDir_mk, state_mk, ph_mk, children_mk]
        have hlist : invBList (updateChild cs x (fun cc => cc.updateParentChain rest)) = true := by
          apply invBList_updateChild h2
          intro cc hcc
          rw [hc] at hcc
          injection hcc with he
          subst he
          exact ih c hcinv (by rw [hm2]; rfl)
        have hne2 : updateChild cs x (fun cc => cc.updateParentChain rest) ≠ [] := by
          intro h0
          have hl := updateChild_length cs x (fun cc => cc.updateParentChain rest)
          rw [h0] at hl
          exact hcs (List.length_eq_zero.mp hl.symm)
        rw [recompute_mk_ne_nil hne2, invB_mk]
        subst hd
        subst hp
        simp [hlist]

theorem invB_toggle (t : Node) (q : List String) (s : CState) (hs : s ≠ .tristate)
    (h : invB t = true) : invB (t.toggle_check q s) = true := by
  unfold Node.toggle_check
  cases hl : t.locate q with
  | none => exact h
  | some m =>
    have hupd : invB (t.updateAt (Node.setAll s) q) = true :=
      invB_updateAt q t h (fun m2 hm2 => invB_setAll s hs m2 (invB_locate q t m2 h hm2))
    apply invB_chain q _ hupd
    have hq := updateAt_locate (setAll_name s) q t m hl []
    rw [List.append_nil] at hq
    rw [hq]
    rfl

theorem initState_ne_tristate (cps : List FPath) (p : FPath) : initState cps p ≠ .tristate := by
  unfold initState
  by_cases h : p ∈ cps <;> simp [h]

theorem invB_mkFsNode (cps : List FPath) (parent : FPath) (e : FS) :
    invB (mkFsNode cps parent e) = true := by
  cases e with
  | file nn i =>
    simp [mkFsNode, invB_mk, invBList, initState_ne_tristate cps (parent ++ [nn])]
  | dir nn es =>
    simp [mkFsNode, invB_mk, invBList, initState_ne_tristate cps (parent ++ [nn])]

theorem invBList_map_mkFsNode (cps : List FPath) (parent : FPath) : ∀ (es : List FS),
    invBList (es.map (mkFsNode cps parent)) = true := by
  intro es
  induction es with
  | nil => rfl
  | cons e rest ih =>
    simp only [List.map_cons]
    unfold invBList
    rw [invB_mkFsNode, ih]
    rfl

theorem invB_populate (fs : List FS) (r : FPath) (cps : List FPath) :
    invB (populate fs r cps) = true := by
  have hkinv : invBList ((sortByName fs).map (mkFsNode cps r)) = true :=
    invBList_map_mkFsNode cps r (sortByName fs)
  have hroot : invB (Node.mk (r.getLastD "") true (initState cps r) false
      ((sortByName fs).map (mkFsNode cps r))) = true := by
    rw [invB_mk]
    simp [hkinv]
  unfold populate
  split
  · exact hroot
  · rename_i hne
    have hkne : (sortByName fs).map (mkFsNode cps r) ≠ [] := by
      apply ne_nil_of_isEmpty_false
      revert hne
      cases ((sortByName fs).map (mkFsNode cps r)).isEmpty <;> simp
    rw [recompute_mk_ne_nil hkne, invB_mk]
    simp [hkinv]

theorem invB_ph_parts {m : Node} (h : invB m = true) (hp : m.ph = true) :
    m.isDir = true ∧ m.children = [] ∧ m.state ≠ .tristate := by
  cases m with
  | mk n d s p cs =>
    simp only [ph_mk] at hp
    subst hp
    simp only [isDir_mk, children_mk, state_mk]
    rw [invB_mk] at h
    rcases band_split h with ⟨h1, _⟩
    rcases band_split h1 with ⟨ha, hb⟩
    simp only [Bool.not_true, Bool.false_or, Bool.and_eq_true, decide_eq_true_eq] at hb
    rcases hb with ⟨hbe, hbs⟩
    have hcs : cs = [] := by
      cases cs with
      | nil => rfl
      | cons a as => simp at hbe
    refine ⟨?_, hcs, hbs⟩
    subst hcs
    simp only [List.isEmpty_nil, Bool.not_true, Bool.and_false, Bool.or_eq_true] at ha
    rcases ha with ha | ha
    · exact ha
    · exact absurd ha (by simp)

theorem invB_expand (fs : List FS) (r : FPath) (cps : List FPath) (t : Node) (q : List String)
    (h : invB t = true) : invB (on_tree_open fs r cps t q) = true := by
  unfold on_tree_open
  split
  · exact h
  · rename_i m hl
    have hminv : invB m = true := invB_locate q t m h hl
    split
    · rename_i hph
      split
      · exact h
      · rename_i es hfs
        obtain ⟨hmd, hmcs, hmstri⟩ := invB_ph_parts hminv hph
        split
        · rename_i hun
          apply invB_updateAt q t h
          intro m2 hm2
          rw [hl] at hm2
          injection hm2 with he
          subst he
          show invB (Node.mk m.name m.isDir m.state false
            ((sortByName es).map (mkFsNode cps (r ++ q)))) = true
          rw [invB_mk]
          simp [hmd, invBList_map_mkFsNode]
        · rename_i hun
          have hkinv2 : invBList (setAllList m.state
              ((sortByName es).map (mkFsNode cps (r ++ q)))) = true := by
            apply setAllList_invB
            · intro c _ hcinv
              exact invB_setAll _ hmstri c hcinv
            · exact invBList_map_mkFsNode cps (r ++ q) (sortByName es)
          have ht1 : invB (t.updateAt (fun nn => Node.mk nn.name nn.isDir nn.state false
              (setAllList m.state
                ((sortByName es).map (mkFsNode cps (r ++ q))))) q) = true := by
            apply invB_updateAt q t h
            intro m2 hm2
            rw [hl] at hm2
            injection hm2 with he
            subst he
            show invB (Node.mk m.name m.isDir m.state false
              (setAllList m.state ((sortByName es).map (mkFsNode cps (r ++ q))))) = true
            rw [invB_mk]
            simp [hmd, hkinv2]
          split
          · exact ht1
          · rename_i hkne
            have hkne2 : setAllList m.state
                ((sortByName es).map (mkFsNode cps (r ++ q))) ≠ [] := by
              intro h0
              rw [h0] at hkne
              simp at hkne
            have htloc : (t.updateAt (fun nn => Node.mk nn.name nn.isDir nn.state false
                (setAllList m.state
                  ((sortByName es).map (mkFsNode cps (r ++ q))))) q).locate q =
                some (Node.mk m.name m.isDir m.state false
                  (setAllList m.state
                    ((sortByName es).map (mkFsNode cps (r ++ q))))) := by
              have hq := @updateAt_locate (fun nn => Node.mk nn.name nn.isDir nn.state false
                (setAllList m.state
                  ((sortByName es).map (mkFsNode cps (r ++ q)))))
                (fun nn => by simp) q t m hl []
              rw [List.append_nil] at hq
              rw [hq]
              rfl
            have ht2 : invB ((t.updateAt (fun nn => Node.mk nn.name nn.isDir nn.state false
                (setAllList m.state
                  ((sortByName es).map (mkFsNode cps (r ++ q))))) q).updateAt
                  Node.recompute q) = true := by
              apply invB_updateAt q _ ht1
              intro m2 hm2
              rw [htloc] at hm2
              injection hm2 with he
              subst he
              rw [recompute_mk_ne_nil hkne2, invB_mk]
              simp [hmd, hkinv2]
            apply invB_chain q _ ht2
            have hq2 := @updateAt_locate Node.recompute
              (fun nn => recompute_name nn) q _ _ htloc []
            rw [List.append_nil] at hq2
            rw [hq2]
            rfl
    · exact h

theorem clickNewState_ne_tristate (s : CState) : clickNewState s ≠ .tristate := by
  unfold clickNewState
  by_cases h : s = .checked <;> simp [h]

theorem invB_click (t : Node) (q : List String) (h : invB t = true) :
    invB (t.on_single_click q) = true := by
  unfold Node.on_single_click
  cases hl : t.locate q with
  | none => exact h
  | some m => exact invB_toggle t q _ (clickNewState_ne_tristate m.state) h

theorem reachable_invB (fs : List FS) (r : FPath) (t : Node) (h : Reachable fs r t) :
    invB t = true := by
  induction h with
  | init cps => exact invB_populate fs r cps
  | expand t2 q cps _ ih => exact invB_expand fs r cps t2 q ih
  | click t2 q _ ih => exact invB_click t2 q ih

theorem invB_file_state {m : Node} (h : invB m = true) (hf : m.isDir = false) :
    m.state ≠ .tristate := by
  cases m with
  | mk n d s p cs =>
    simp only [isDir_mk] at hf
    subst hf
    rw [invB_mk] at h
    simp only [Bool.false_or, Bool.and_eq_true, decide_eq_true_eq] at h
    tauto

/-- C4: over a fixed snapshot, in every tree state reachable by root loads
(populate_tree), lazy expansions (on_tree_open) and checkbox toggles
(on_single_click), a file (non-directory) node's state is only Checked or
Unchecked, never Tristate — in particular the states newly discovered file
children receive when a directory whose own state is not Unchecked is
expanded still satisfy the invariant. -/
theorem c4_file_nodes_never_tristate (fs : List FS) (r : FPath) (t : Node)
    (h : Reachable fs r t) (q : List String) (m : Node)
    (hm : t.locate q = some m) (hf : m.isDir = false) : m.state ≠ .tristate :=
  invB_file_state (invB_locate q t m (reachable_invB fs r t h) hm) hf

theorem c4_witness : (Node.mk "a" false CState.unchecked false []).state ≠ .tristate :=
  c4_file_nodes_never_tristate fsD rD tD1
    (Reachable.expand tD0 ["d"] [] (Reachable.init [])) ["d", "a"]
    (Node.mk "a" false CState.unchecked false []) rfl rfl

/-! Persisted checked_paths (claim C2). -/

theorem mem_savedPathsList_iff : ∀ (cs : List Node) (base p : FPath),
    (∀ c ∈ cs, ∀ (b q : FPath),
      q ∈ savedPaths c b ↔ ∃ s, (q, s) ∈ nodesOf c b ∧ s ≠ CState.unchecked) →
    (p ∈ savedPathsList cs base ↔
      ∃ s, (p, s) ∈ nodesOfList cs base ∧ s ≠ CState.unchecked) := by
  intro cs
  induction cs with
  | nil =>
    intro base p _
    simp [savedPathsList, nodesOfList]
  | cons c rest ih =>
    intro base p hmem
    have hc := hmem c (by simp) (base ++ [c.name]) p
    have hrest := ih base p (fun c2 hc2 b q => hmem c2 (List.mem_cons_of_mem _ hc2) b q)
    simp only [savedPathsList, nodesOfList, List.mem_append]
    rw [hc, hrest]
    constructor
    · rintro (⟨s, hs, hne⟩ | ⟨s, hs, hne⟩)
      · exact ⟨s, Or.inl hs, hne⟩
      · exact ⟨s, Or.inr hs, hne⟩
    · rintro ⟨s, hs | hs, hne⟩
      · exact Or.inl ⟨s, hs, hne⟩
      · exact Or.inr ⟨s, hs, hne⟩

theorem mem_savedPaths_iff : ∀ (t : Node) (base p : FPath),
    p ∈ savedPaths t base ↔ ∃ s, (p, s) ∈ nodesOf t base ∧ s ≠ CState.unchecked := by
  intro t
  induction t using node_ind with
  | h n d st ph cs ih =>
    intro base p
    have hlist := mem_savedPathsList_iff cs base p (fun c hc b q => ih c hc b q)
    simp only [savedPaths, nodesOf, List.mem_append, List.mem_cons]
    split
    · rename_i hst
      subst hst
      simp only [List.not_mem_nil, false_or]
      rw [hlist]
      constructor
      · rintro ⟨s, hs, hne⟩
        exact ⟨s, Or.inr hs, hne⟩
      · rintro ⟨s, hs | hs, hne⟩
        · cases hs
          exact absurd rfl hne
        · exact ⟨s, hs, hne⟩
    · rename_i hst
      simp only [List.mem_singleton]
      rw [hlist]
      constructor
      · rintro (hp | ⟨s, hs, hne⟩)
        · exact ⟨st, Or.inl (by rw [hp]), hst⟩
        · exact ⟨s, Or.inr hs, hne⟩
      · rintro ⟨s, hs | hs, hne⟩
        · rw [Prod.mk.injEq] at hs
          exact Or.inl hs.1
        · exact Or.inr ⟨s, hs, hne⟩

/-- C2 counterexample: in tD2 (root loaded, d expanded, file a clicked)
the directory node d has explicit state Tristate, yet its resolved path is
included in the persisted checked_paths — refuting the claim that only
nodes whose explicit state is Checked at save time are included. -/
theorem c2_counterexample :
    (["root", "d"] ∈ savedPaths tD2 rD) ∧
      (tD2.locate ["d"]).map Node.state = some CState.tristate := by
  constructor
  · decide
  · rfl

/-- C2 (amended): whenever settings are saved, the persisted checked_paths
set contains exactly the resolved paths of materialized tree nodes whose
explicit state is not Unchecked — so Checked and Tristate nodes are both
included, and Unchecked nodes or paths whose selection is only inherited
from an ancestor (hence not materialized with a non-Unchecked state of
their own) are never included. -/
theorem c2_saved_iff_not_unchecked (t : Node) (base p : FPath) :
    p ∈ savedPaths t base ↔ ∃ s, (p, s) ∈ nodesOf t base ∧ s ≠ CState.unchecked :=
  mem_savedPaths_iff t base p

/-! The reported file count versus the files actually written (claim C1)
and the abort conditions of a generation run (claim C9). -/

/-- C1 counterexample: a single selected file 6 MiB large with a 5 MB
limit: the caller is handed a count of 1 (len(files_to_process)) although
no file at all is written to the dump body. -/
theorem c1_counterexample :
    process_files cfgBig fsBig tBig ["root"] =
      Except.ok (files_to_process [] [] tBig ["root"] fsBig).length ∧
    (files_to_process [] [] tBig ["root"] fsBig).length = 1 ∧
    (written_files 5 (files_to_process [] [] tBig ["root"] fsBig)).length = 0 :=
  ⟨rfl, rfl, rfl⟩

/-- C1 (amended): when the size entry parses and the output file opens,
the value returned to the caller is the number of collected files (after
ignore/selection filtering but BEFORE skip-filtering); the number of files
actually written is only bounded above by it — files skipped for size,
binary content or read errors are still counted. -/
theorem c1_reported_count_is_collected (cfg : GenConfig) (fs : List FS) (t : Node) (r : FPath)
    (mb : Nat) (hmb : cfg.maxSizeMb = some mb) (hopen : cfg.openOk = true) :
    process_files cfg fs t r =
      Except.ok (files_to_process cfg.igDirs cfg.igExts t r fs).length ∧
    (written_files mb (files_to_process cfg.igDirs cfg.igExts t r fs)).length ≤
      (files_to_process cfg.igDirs cfg.igExts t r fs).length := by
  constructor
  · unfold process_files
    rw [hmb]
    simp [hopen]
  · exact List.length_filter_le _ _

theorem c1_witness :
    process_files cfgBig fsBig tBig ["root"] =
      Except.ok (files_to_process cfgBig.igDirs cfgBig.igExts tBig ["root"] fsBig).length ∧
    (written_files 5 (files_to_process cfgBig.igDirs cfgBig.igExts tBig ["root"] fsBig)).length ≤
      (files_to_process cfgBig.igDirs cfgBig.igExts tBig ["root"] fsBig).length :=
  c1_reported_count_is_collected cfgBig fsBig tBig ["root"] 5 rfl rfl

/-- C9 counterexample: with a non-numeric max-size entry (float raises
ValueError) the run aborts although opening the output target succeeds —
refuting "the entire run aborts iff opening the output target itself
fails". -/
theorem c9_counterexample :
    process_files cfgBad fsBig tBig ["root"] = Except.error () ∧ cfgBad.openOk = true :=
  ⟨rfl, rfl⟩

/-- C9 (amended): a file failing the per-file write gate (stat failure,
size over limit, binary heuristic, read error) is skipped alone — deleting
it from the collection leaves the written sequence of the other files
unchanged — and the whole run aborts iff the max-size entry fails to parse
or opening the output target fails; in each abort case the caller is
notified (error dialog, button re-enabled) instead of receiving a count. -/
theorem c9_abort_conditions :
    (∀ (cfg : GenConfig) (fs : List FS) (t : Node) (r : FPath),
      process_files cfg fs t r = Except.error () ↔
        (cfg.maxSizeMb = none ∨ cfg.openOk = false)) ∧
    (∀ (mb : Nat) (xs ys : List (FPath × FileInfo)) (f : FPath × FileInfo),
      passesWriteFilter (mb * 1024 * 1024) f.2 = false →
      written_files mb (xs ++ f :: ys) = written_files mb (xs ++ ys)) := by
  constructor
  · intro cfg fs t r
    unfold process_files
    cases hmb : cfg.maxSizeMb with
    | none => simp
    | some mb =>
      cases hop : cfg.openOk <;> simp [hop]
  · intro mb xs ys f hf
    unfold written_files
    simp [List.filter_append, hf]

theorem c9_witness :
    process_files cfgBad fsBig tBig ["root"] = Except.error () ∧
    written_files 5 ([(["root", "a"], fi0)] ++ (["root", "big.txt"], fiBig) ::
        [(["root", "b"], fi0)]) =
      written_files 5 ([(["root", "a"], fi0)] ++ [(["root", "b"], fi0)]) := by
  constructor
  · exact (c9_abort_conditions.1 cfgBad fsBig tBig ["root"]).mpr (Or.inl rfl)
  · exact c9_abort_conditions.2 5 [(["root", "a"], fi0)] [(["root", "b"], fi0)]
      (["root", "big.txt"], fiBig) (by decide)

/-! Ignored directory names never reach the selected tree or the dump
(claim C8). -/

theorem ignored_of_segment {igD igE : List String} {p : FPath} {d0 seg : String}
    (hd : d0 ∈ igD) (hseg : seg ∈ p) (hlow : lowStr seg = lowStr d0) :
    is_path_ignored igD igE p = true := by
  have h1 : (p.map lowStr).any (fun s => (igD.map lowStr).contains s) = true := by
    rw [List.any_eq_true]
    refine ⟨lowStr seg, List.mem_map_of_mem _ hseg, ?_⟩
    rw [hlow]
    exact List.elem_iff.mpr (List.mem_map_of_mem _ hd)
  show ((p.map lowStr).any (fun s => (igD.map lowStr).contains s) ||
    ((igE.map lowStr).contains (splitextExt ((p.map lowStr).getLastD "")))) = true
  rw [h1]
  rfl

theorem mem_recTreeList (full : Bool) (igD igE : List String) (t : Node) (r : FPath) :
    ∀ (es : List FS) (path p : FPath),
      p ∈ recTreeList full igD igE t r es path →
      ∃ e ∈ es, p ∈ recTreeEntry full igD igE t r e path := by
  intro es
  induction es with
  | nil => intro path p hp; simp [recTreeList] at hp
  | cons e rest ih =>
    intro path p hp
    unfold recTreeList at hp
    rcases List.mem_append.mp hp with hp | hp
    · exact ⟨e, by simp, hp⟩
    · obtain ⟨e2, he2, hp2⟩ := ih path p hp
      exact ⟨e2, List.mem_cons_of_mem _ he2, hp2⟩

theorem recTreeEntry_not_ignored (igD igE : List String) (t : Node) (r : FPath) :
    ∀ (e : FS) (path p : FPath),
      p ∈ recTreeEntry false igD igE t r e path → is_path_ignored igD igE p = false := by
  intro e
  induction e using fs_ind with
  | hf nn i =>
    intro path p hp
    unfold recTreeEntry at hp
    split at hp
    · cases hp
    · rename_i hcond
      simp only [Bool.not_false, Bool.true_and, Bool.or_eq_true, Bool.not_eq_true',
        not_or] at hcond
      rcases List.mem_cons.mp hp with hp | hp
      · subst hp
        simpa using hcond.1
      · cases hp
  | hd nn es ihmem =>
    intro path p hp
    unfold recTreeEntry at hp
    split at hp
    · cases hp
    · rename_i hcond
      simp only [Bool.not_false, Bool.true_and, Bool.or_eq_true, Bool.not_eq_true',
        not_or] at hcond
      rcases List.mem_cons.mp hp with hp | hp
      · subst hp
        simpa using hcond.1
      · obtain ⟨e2, he2, hp2⟩ := mem_recTreeList false igD igE t r es (path ++ [nn]) p hp
        exact ihmem e2 he2 (path ++ [nn]) p hp2

theorem walkFilesHere_not_ignored (igD igE : List String) (t : Node) (r : FPath) :
    ∀ (es : List FS) (path p : FPath) (fi : FileInfo),
      (p, fi) ∈ walkFilesHere igD igE t r es path → is_path_ignored igD igE p = false := by
  intro es
  induction es with
  | nil => intro path p fi hp; simp [walkFilesHere] at hp
  | cons e rest ih =>
    intro path p fi hp
    cases e with
    | file nn i =>
      unfold walkFilesHere at hp
      rcases List.mem_append.mp hp with hp | hp
      · split at hp
        · rename_i hgate
          rcases band_split hgate with ⟨hig, _⟩
          rcases List.mem_singleton.mp hp with hpq
          rw [Prod.mk.injEq] at hpq
          rw [← hpq.1] at hig
          simpa using hig
        · cases hp
      · exact ih path p fi hp
    | dir nn sub =>
      unfold walkFilesHere at hp
      exact ih path p fi hp

theorem mem_walkSubdirsList (igD igE : List String) (t : Node) (r : FPath) :
    ∀ (es : List FS) (path p : FPath) (fi : FileInfo),
      (p, fi) ∈ walkSubdirsList igD igE t r es path →
      ∃ e ∈ es, (p, fi) ∈ walkEntryDirs igD igE t r e path := by
  intro es
  induction es with
  | nil => intro path p fi hp; simp [walkSubdirsList] at hp
  | cons e rest ih =>
    intro path p fi hp
    unfold walkSubdirsList at hp
    rcases List.mem_append.mp hp with hp | hp
    · exact ⟨e, by simp, hp⟩
    · obtain ⟨e2, he2, hp2⟩ := ih path p fi hp
      exact ⟨e2, List.mem_cons_of_mem _ he2, hp2⟩

theorem walkEntryDirs_not_ignored (igD igE : List String) (t : Node) (r : FPath) :
    ∀ (e : FS) (path p : FPath) (fi : FileInfo),
      (p, fi) ∈ walkEntryDirs igD igE t r e path → is_path_ignored igD igE p = false := by
  intro e
  induction e using fs_ind with
  | hf nn i =>
    intro path p fi hp
    simp [walkEntryDirs] at hp
  | hd nn es ihmem =>
    intro path p fi hp
    unfold walkEntryDirs at hp
    split at hp
    · rcases List.mem_append.mp hp with hp | hp
      · exact walkFilesHere_not_ignored igD igE t r es (path ++ [nn]) p fi hp
      · obtain ⟨e2, he2, hp2⟩ := mem_walkSubdirsList igD igE t r es (path ++ [nn]) p fi hp
        exact ihmem e2 he2 (path ++ [nn]) p fi hp2
    · cases hp

/-- C8: for every directory name in the configured ignore set (compared
case-insensitively), no file whose path contains that name as a path
segment appears among the entries of the Selected-mode tree listing, among
the files collected for the dump, or among the files actually written —
regardless of its own or its ancestors' selection states, since the ignore
test is applied independently of and conjunctively with selection. -/
theorem c8_ignored_dir_excluded (igD igE : List String) (t : Node) (r : FPath)
    (fs : List FS) (dname : String) (hd : dname ∈ igD) (p : FPath)
    (hseg : ∃ seg ∈ p, lowStr seg = lowStr dname) :
    p ∉ generated_tree_entries false igD igE t r fs ∧
    (∀ fi, (p, fi) ∉ files_to_process igD igE t r fs) ∧
    (∀ (mb : Nat) (fi : FileInfo),
      (p, fi) ∉ written_files mb (files_to_process igD igE t r fs)) := by
  obtain ⟨seg, hsm, hlow⟩ := hseg
  have hig : is_path_ignored igD igE p = true := ignored_of_segment hd hsm hlow
  have hcollect : ∀ fi, (p, fi) ∉ files_to_process igD igE t r fs := by
    intro fi hp
    unfold files_to_process at hp
    rcases List.mem_append.mp hp with hp | hp
    · rw [walkFilesHere_not_ignored igD igE t r fs r p fi hp] at hig
      simp at hig
    · obtain ⟨e2, he2, hp2⟩ := mem_walkSubdirsList igD igE t r fs r p fi hp
      rw [walkEntryDirs_not_ignored igD igE t r e2 r p fi hp2] at hig
      simp at hig
  refine ⟨?_, hcollect, ?_⟩
  · intro hp
    unfold generated_tree_entries at hp
    obtain ⟨e2, _, hp2⟩ := mem_recTreeList false igD igE t r (sortByName (sortAllList fs)) r p hp
    rw [recTreeEntry_not_ignored igD igE t r e2 r p hp2] at hig
    simp at hig
  · intro mb fi hp
    unfold written_files at hp
    exact hcollect fi (List.mem_filter.mp hp).1

theorem c8_witness :
    (["root", "node_modules", "x.js"] ∉
      generated_tree_entries false ["node_modules"] [] tNM ["root"] fsNM) ∧
    (∀ fi, (["root", "node_modules", "x.js"], fi) ∉
      files_to_process ["node_modules"] [] tNM ["root"] fsNM) ∧
    (∀ (mb : Nat) (fi : FileInfo), (["root", "node_modules", "x.js"], fi) ∉
      written_files mb (files_to_process ["node_modules"] [] tNM ["root"] fsNM)) :=
  c8_ignored_dir_excluded ["node_modules"] [] tNM ["root"] fsNM "node_modules" (by decide)
    ["root", "node_modules", "x.js"] ⟨"node_modules", by decide, rfl⟩

/-! Save/reload round trip (claim C5). -/

theorem ispsStep_self (t : Node) (r : FPath) (next : Bool) :
    ispsStep t r r next = decide (t.state ≠ .unchecked) := by
  unfold ispsStep
  rw [lookupState_self]
  cases ht : t.state <;> simp

theorem isps_root (t : Node) (r : FPath) :
    is_path_selected t r r = decide (t.state ≠ .unchecked) := by
  unfold is_path_selected
  cases hr : r.reverse with
  | nil =>
    have h0 : r = [] := by simpa using congrArg List.reverse hr
    calc ispsRev t r [] = ispsStep t r [] false := rfl
    _ = ispsStep t r r false := by rw [h0]
    _ = decide (t.state ≠ .unchecked) := ispsStep_self t r false
  | cons x rest =>
    have h2 : (x :: rest).reverse = r := by
      rw [← hr, List.reverse_reverse]
    calc ispsRev t r (x :: rest)
        = ispsStep t r ((x :: rest).reverse) (ispsRev t r rest) := rfl
    _ = ispsStep t r r (ispsRev t r rest) := by rw [h2]
    _ = decide (t.state ≠ .unchecked) := ispsStep_self t r (ispsRev t r rest)

theorem isps_snoc (t : Node) (r : FPath) (n : String) :
    is_path_selected t r (r ++ [n]) =
      ispsStep t r (r ++ [n]) (is_path_selected t r r) := by
  unfold is_path_selected
  have h0 : (r ++ [n]).reverse = n :: r.reverse := by
    rw [List.reverse_append]
    rfl
  rw [h0]
  calc ispsRev t r (n :: r.reverse)
      = ispsStep t r ((n :: r.reverse).reverse) (ispsRev t r r.reverse) := rfl
  _ = ispsStep t r (r ++ [n]) (ispsRev t r r.reverse) := by
      rw [List.reverse_cons, List.reverse_reverse]

theorem locate_single (t : Node) (n : String) :
    t.locate [n] = childNamed t.children n := by
  cases hc : childNamed t.children n <;> simp [Node.locate, hc]

theorem lookupState_child (t : Node) (r : FPath) (n : String) :
    lookupState t r (r ++ [n]) = (childNamed t.children n).map Node.state := by
  unfold lookupState
  have hpre : r.isPrefixOf (r ++ [n]) = true := by
    simp [List.isPrefixOf_iff_prefix]
  rw [if_pos hpre, List.drop_left, locate_single]

theorem mkFsNode_name (cps : List FPath) (parent : FPath) (e : FS) :
    (mkFsNode cps parent e).name = e.name := by
  cases e <;> rfl

theorem mkFsNode_state (cps : List FPath) (parent : FPath) (e : FS) :
    (mkFsNode cps parent e).state = initState cps (parent ++ [e.name]) := by
  cases e <;> rfl

theorem populate_children (fs : List FS) (r : FPath) (cps : List FPath) :
    (populate fs r cps).children = (sortByName fs).map (mkFsNode cps r) := by
  unfold populate
  split
  · rfl
  · rw [recompute_children]
    rfl

theorem populate_state_empty (fs : List FS) (r : FPath) (cps : List FPath)
    (h : (sortByName fs).map (mkFsNode cps r) = []) :
    (populate fs r cps).state = initState cps r := by
  unfold populate
  rw [h]
  rfl

theorem populate_state_ne (fs : List FS) (r : FPath) (cps : List FPath)
    (h : (sortByName fs).map (mkFsNode cps r) ≠ []) :
    (populate fs r cps).state =
      childAgg (((sortByName fs).map (mkFsNode cps r)).map Node.state) := by
  unfold populate
  split
  · rename_i hE
    exact absurd (by simpa using hE) h
  · rw [recompute_mk_ne_nil h]
    rfl

theorem childNamed_map_mkFsNode (cps : List FPath) (parent : FPath) :
    ∀ (es : List FS) (n : String),
      childNamed (es.map (mkFsNode cps parent)) n =
        (es.find? (fun e => decide (e.name = n))).map (mkFsNode cps parent) := by
  intro es
  induction es with
  | nil => intro n; rfl
  | cons e rest ih =>
    intro n
    by_cases hn : e.name = n
    · simp [childNamed, mkFsNode_name, List.find?, hn]
    · simp [childNamed, mkFsNode_name, List.find?, hn, ih n]

theorem find?_name_mem : ∀ (es : List FS) (n : String), n ∈ es.map FS.name →
    ∃ e, es.find? (fun e => decide (e.name = n)) = some e ∧ e.name = n := by
  intro es
  induction es with
  | nil => intro n hn; simp at hn
  | cons e rest ih =>
    intro n hn
    simp only [List.find?]
    by_cases he : e.name = n
    · exact ⟨e, by simp [he], he⟩
    · simp only [List.map_cons, List.mem_cons] at hn
      rcases hn with hn | hn
      · exact absurd hn.symm he
      · simpa [he] using ih n hn

theorem childNamed_of_mem_nodup : ∀ (cs : List Node) (c : Node),
    (cs.map Node.name).Nodup → c ∈ cs → childNamed cs c.name = some c := by
  intro cs
  induction cs with
  | nil => intro c _ hc; cases hc
  | cons c0 rest ih =>
    intro c hnd hc
    simp only [List.map_cons, List.nodup_cons] at hnd
    rcases List.mem_cons.mp hc with hc | hc
    · subst hc
      simp [childNamed]
    · unfold childNamed
      by_cases h0 : c0.name = c.name
      · exfalso
        apply hnd.1
        rw [h0]
        exact List.mem_map_of_mem _ hc
      · rw [if_neg h0]
        exact ih c hnd.2 hc

theorem childNamed_isSome_of_mem : ∀ (cs : List Node) (c : Node),
    c ∈ cs → (childNamed cs c.name).isSome := by
  intro cs
  induction cs with
  | nil => intro c hc; cases hc
  | cons c0 rest ih =>
    intro c hc
    unfold childNamed
    by_cases h0 : c0.name = c.name
    · simp [h0]
    · rw [if_neg h0]
      rcases List.mem_cons.mp hc with hc | hc
      · subst hc
        exact absurd rfl h0
      · exact ih c hc

theorem childAgg_tristate_mem (cs : List CState) (hx : CState.tristate ∈ cs) :
    childAgg cs = .tristate := by
  cases cs with
  | nil => cases hx
  | cons s0 rest =>
    simp only [childAgg]
    split
    · rename_i hall
      simp only [List.all_eq_true, decide_eq_true_eq] at hall
      rcases List.mem_cons.mp hx with h | h
      · exact h.symm
      · exact (hall _ h).symm
    · rfl

theorem childAgg_ne_unchecked_iff (cs : List CState) :
    childAgg cs ≠ CState.unchecked ↔ (cs = [] ∨ ∃ x ∈ cs, x ≠ CState.unchecked) := by
  rw [Ne, childAgg_eq_state_iff cs CState.unchecked (by intro h0; cases h0)]
  constructor
  · intro h
    by_cases hE : cs = []
    · exact Or.inl hE
    · right
      by_contra hno
      push_neg at hno
      exact h ⟨hE, hno⟩
  · rintro (hE | ⟨x, hx, hne⟩) hcontra
    · exact hcontra.1 hE
    · exact hne (hcontra.2 x hx)

theorem mem_nodesOfList : ∀ (cs : List Node) (base p : FPath) (s : CState),
    (p, s) ∈ nodesOfList cs base → ∃ c ∈ cs, (p, s) ∈ nodesOf c (base ++ [c.name]) := by
  intro cs
  induction cs with
  | nil => intro base p s hp; simp [nodesOfList] at hp
  | cons c rest ih =>
    intro base p s hp
    unfold nodesOfList at hp
    rcases List.mem_append.mp hp with hp | hp
    · exact ⟨c, by simp, hp⟩
    · obtain ⟨c2, hc2, hp2⟩ := ih base p s hp
      exact ⟨c2, List.mem_cons_of_mem _ hc2, hp2⟩

theorem nodesOfList_mem_of : ∀ (cs : List Node) (base : FPath) (c : Node),
    c ∈ cs → ∀ x ∈ nodesOf c (base ++ [c.name]), x ∈ nodesOfList cs base := by
  intro cs
  induction cs with
  | nil => intro base c hc; cases hc
  | cons c0 rest ih =>
    intro base c hc x hx
    unfold nodesOfList
    rcases List.mem_cons.mp hc with hc | hc
    · subst hc
      exact List.mem_append.mpr (Or.inl hx)
    · exact List.mem_append.mpr (Or.inr (ih base c hc x hx))

theorem nodesOf_self (t : Node) (base : FPath) : (base, t.state) ∈ nodesOf t base := by
  cases t with
  | mk n d st ph cs => simp [nodesOf]

theorem nodesOf_mem_prefix : ∀ (t : Node) (base p : FPath) (s : CState),
    (p, s) ∈ nodesOf t base → base <+: p := by
  intro t
  induction t using node_ind with
  | h n d st ph cs ih =>
    intro base p s hp
    simp only [nodesOf, List.mem_cons] at hp
    rcases hp with hp | hp
    · rw [Prod.mk.injEq] at hp
      rw [hp.1]
    · obtain ⟨c, hc, hp2⟩ := mem_nodesOfList cs base p s hp
      have h0 := ih c hc (base ++ [c.name]) p s hp2
      exact List.IsPrefix.trans (List.prefix_append base [c.name]) h0

theorem mem_nodesOf_shape (t : Node) (base p : FPath) (s : CState)
    (hp : (p, s) ∈ nodesOf t base) :
    (p = base ∧ s = t.state) ∨
      ∃ c ∈ t.children, (base ++ [c.name]) <+: p ∧ (p, s) ∈ nodesOf c (base ++ [c.name]) := by
  cases t with
  | mk n d st ph cs =>
    simp only [nodesOf, List.mem_cons] at hp
    rcases hp with hp | hp
    · rw [Prod.mk.injEq] at hp
      exact Or.inl ⟨hp.1, by simpa using hp.2⟩
    · obtain ⟨c, hc, hp2⟩ := mem_nodesOfList cs base p s hp
      exact Or.inr ⟨c, by simpa using hc, nodesOf_mem_prefix c (base ++ [c.name]) p s hp2, hp2⟩

theorem savedPaths_root (t : Node) (r : FPath) :
    r ∈ savedPaths t r ↔ t.state ≠ CState.unchecked := by
  rw [mem_savedPaths_iff]
  constructor
  · rintro ⟨s, hs, hne⟩
    rcases mem_nodesOf_shape t r r s hs with ⟨_, hss⟩ | ⟨c, _, hpre, _⟩
    · rw [hss] at hne
      exact hne
    · exfalso
      have hl := hpre.length_le
      simp at hl
  · intro hne
    exact ⟨t.state, nodesOf_self t r, hne⟩

theorem savedPaths_child (t : Node) (r : FPath) (n : String)
    (hnd : (t.children.map Node.name).Nodup) :
    (r ++ [n]) ∈ savedPaths t r ↔
      ∃ c, childNamed t.children n = some c ∧ c.state ≠ CState.unchecked := by
  rw [mem_savedPaths_iff]
  constructor
  · rintro ⟨s, hs, hne⟩
    rcases mem_nodesOf_shape t r (r ++ [n]) s hs with ⟨hpb, _⟩ | ⟨c, hc, hpre, hdeep⟩
    · exfalso
      have h0 := congrArg List.length hpb
      simp at h0
    · have hlen : (r ++ [c.name]).length = (r ++ [n]).length := by simp
      have heq : r ++ [c.name] = r ++ [n] := List.IsPrefix.eq_of_length hpre hlen
      have hcn : c.name = n := by
        have h0 := List.append_cancel_left heq
        simpa using h0
      rw [heq] at hdeep
      rcases mem_nodesOf_shape c (r ++ [n]) (r ++ [n]) s hdeep with ⟨_, hss⟩ | ⟨g, _, hpre2, _⟩
      · refine ⟨c, ?_, by rw [← hss]; exact hne⟩
        rw [← hcn]
        exact childNamed_of_mem_nodup t.children c hnd hc
      · exfalso
        have hl := hpre2.length_le
        simp at hl
  · rintro ⟨c, hcn, hne⟩
    obtain ⟨hmem, hname⟩ := childNamed_mem hcn
    refine ⟨c.state, ?_, hne⟩
    have h0 : (r ++ [c.name], c.state) ∈ nodesOf c (r ++ [c.name]) := nodesOf_self c _
    have h1 := nodesOfList_mem_of t.children r c hmem _ h0
    rw [hname] at h1
    cases t with
    | mk nn d st ph cs =>
      simp only [children_mk] at h1
      simp only [nodesOf, List.mem_cons]
      exact Or.inr h1

theorem initState_ne_unchecked_iff (cps : List FPath) (p : FPath) :
    initState cps p ≠ CState.unchecked ↔ p ∈ cps := by
  unfold initState
  by_cases h : p ∈ cps <;> simp [h]

/-- C5 counterexample: over the snapshot root/{d/{a, b}}, expand d and
click the checkbox of a (tree tD2: a Checked, b Unchecked, d and the root
Tristate). Saving persists d's path (state ≠ unchecked) and rebuilding the
tree from the saved settings (tD3) restores d as Checked with its children
unloaded — so root/d/b, effectively unselected before the save, is
effectively selected after the reload. -/
theorem c5_counterexample :
    is_path_selected tD2 rD ["root", "d", "b"] = false ∧
    is_path_selected tD3 rD ["root", "d", "b"] = true :=
  ⟨rfl, rfl⟩

/-- C5 (amended): the save/reload round trip preserves effective selection
for the source root and its immediate children (the nodes populate_tree
re-materializes), provided the root's state satisfies the parent
aggregation rule — as _update_parent_state establishes after any toggle —
the tree's top level mirrors the snapshot's sorted listing, and sibling
names are unique. For deeper paths the reloaded one-level tree resolves
selection through the depth-one ancestor's saved state, which the
counterexample shows can differ from the pre-save predicate. -/
theorem c5_roundtrip_depth_one (fs : List FS) (r : FPath) (t : Node)
    (h1 : t.children.map Node.name = (sortByName fs).map FS.name)
    (h2 : t.state = childAgg (t.children.map Node.state))
    (h3 : (t.children.map Node.name).Nodup)
    (p : FPath) (hp : p = r ∨ ∃ c ∈ t.children, p = r ++ [c.name]) :
    is_path_selected (populate fs r (savedPaths t r)) r p = is_path_selected t r p := by
  have hstates : ∀ (cps : List FPath),
      (∃ x ∈ (((sortByName fs).map (mkFsNode cps r)).map Node.state), x ≠ CState.unchecked) ↔
      ∃ e ∈ sortByName fs, initState cps (r ++ [e.name]) ≠ CState.unchecked := by
    intro cps
    constructor
    · rintro ⟨x, hx, hne⟩
      rcases List.mem_map.mp hx with ⟨nd, hnd2, rfl⟩
      rcases List.mem_map.mp hnd2 with ⟨e, he, rfl⟩
      rw [mkFsNode_state] at hne
      exact ⟨e, he, hne⟩
    · rintro ⟨e, he, hne⟩
      refine ⟨(mkFsNode cps r e).state, ?_, by rw [mkFsNode_state]; exact hne⟩
      exact List.mem_map_of_mem _ (List.mem_map_of_mem _ he)
  have hstates2 : (∃ x ∈ t.children.map Node.state, x ≠ CState.unchecked) ↔
      ∃ c ∈ t.children, c.state ≠ CState.unchecked := by
    constructor
    · rintro ⟨x, hx, hne⟩
      rcases List.mem_map.mp hx with ⟨c, hc, rfl⟩
      exact ⟨c, hc, hne⟩
    · rintro ⟨c, hc, hne⟩
      exact ⟨c.state, List.mem_map_of_mem _ hc, hne⟩
  have hlen : t.children.length = (sortByName fs).length := by
    have h0 := congrArg List.length h1
    simpa using h0
  have hkidsE : ((sortByName fs).map (mkFsNode (savedPaths t r) r) = []) ↔ t.children = [] := by
    constructor
    · intro h0
      have h00 : (sortByName fs).length = 0 := by simpa using congrArg List.length h0
      exact List.length_eq_zero.mp (by rw [hlen, h00])
    · intro h0
      have h00 : (sortByName fs).length = 0 := by rw [← hlen, h0]; rfl
      rw [List.length_eq_zero.mp h00]
      rfl
  have hroot : (populate fs r (savedPaths t r)).state ≠ CState.unchecked ↔
      t.state ≠ CState.unchecked := by
    by_cases hE : (sortByName fs).map (mkFsNode (savedPaths t r) r) = []
    · rw [populate_state_empty fs r _ hE, initState_ne_unchecked_iff, savedPaths_root]
    · have htne : t.children ≠ [] := fun h0 => hE (hkidsE.mpr h0)
      rw [populate_state_ne fs r _ hE, h2, childAgg_ne_unchecked_iff,
        childAgg_ne_unchecked_iff]
      constructor
      · rintro (h0 | h0)
        · exact absurd (by simpa using h0) hE
        · right
          obtain ⟨e, he, hne⟩ := (hstates (savedPaths t r)).mp h0
          rw [initState_ne_unchecked_iff] at hne
          obtain ⟨c, hcn, hcne⟩ := (savedPaths_child t r e.name h3).mp hne
          exact hstates2.mpr ⟨c, (childNamed_mem hcn).1, hcne⟩
      · rintro (h0 | h0)
        · exact absurd (by simpa using h0) htne
        · right
          obtain ⟨c, hcm, hcne⟩ := hstates2.mp h0
          have hsaved : (r ++ [c.name]) ∈ savedPaths t r :=
            (savedPaths_child t r c.name h3).mpr
              ⟨c, childNamed_of_mem_nodup t.children c h3 hcm, hcne⟩
          have hnm : c.name ∈ (sortByName fs).map FS.name := by
            rw [← h1]
            exact List.mem_map_of_mem _ hcm
          rcases List.mem_map.mp hnm with ⟨e, he, hen⟩
          apply (hstates (savedPaths t r)).mpr
          refine ⟨e, he, ?_⟩
          rw [initState_ne_unchecked_iff, hen]
          exact hsaved
  rcases hp with rfl | ⟨c0, hc0, rfl⟩
  · rw [isps_root, isps_root]
    exact decide_eq_decide.mpr hroot
  · have hcn0 : childNamed t.children c0.name = some c0 :=
      childNamed_of_mem_nodup t.children c0 h3 hc0
    rw [isps_snoc, isps_snoc]
    have hnm : c0.name ∈ (sortByName fs).map FS.name := by
      rw [← h1]
      exact List.mem_map_of_mem _ hc0
    obtain ⟨e, hfe, hen⟩ := find?_name_mem (sortByName fs) c0.name hnm
    have haf : lookupState (populate fs r (savedPaths t r)) r (r ++ [c0.name]) =
        some (initState (savedPaths t r) (r ++ [c0.name])) := by
      rw [lookupState_child, populate_children, childNamed_map_mkFsNode, hfe]
      simp [mkFsNode_state, hen]
    have hbf : lookupState t r (r ++ [c0.name]) = some c0.state := by
      rw [lookupState_child, hcn0]
      rfl
    unfold ispsStep
    rw [haf, hbf]
    by_cases hmem : (r ++ [c0.name]) ∈ savedPaths t r
    · have hi : initState (savedPaths t r) (r ++ [c0.name]) = CState.checked := by
        unfold initState
        rw [if_pos hmem]
      rw [hi]
      obtain ⟨c, hcn, hcne⟩ := (savedPaths_child t r c0.name h3).mp hmem
      rw [hcn0] at hcn
      injection hcn with he0
      subst he0
      cases hcs : c0.state with
      | checked => rfl
      | unchecked => exact absurd hcs hcne
      | tristate =>
        have hne0 : ¬(r ++ [c0.name] = r) := by simp
        have hts : t.state = CState.tristate := by
          rw [h2]
          apply childAgg_tristate_mem
          rw [← hcs]
          exact List.mem_map_of_mem _ hc0
        simp [hne0, isps_root, hts]
    · have hi : initState (savedPaths t r) (r ++ [c0.name]) = CState.unchecked := by
        unfold initState
        rw [if_neg hmem]
      rw [hi]
      have hcu : c0.state = CState.unchecked := by
        by_contra hne
        exact hmem ((savedPaths_child t r c0.name h3).mpr ⟨c0, hcn0, hne⟩)
      rw [hcu]

theorem c5_witness :
    is_path_selected (populate fsD rD (savedPaths tD2 rD)) rD ["root", "d"] =
      is_path_selected tD2 rD ["root", "d"] :=
  c5_roundtrip_depth_one fsD rD tD2 rfl rfl (by decide) ["root", "d"]
    (Or.inr ⟨Node.mk "d" true .tristate false
      [Node.mk "a" false .checked false [], Node.mk "b" false .unchecked false []],
      List.mem_cons_self _ _, rfl⟩)

end ProjectDumper
